import Mathlib

set_option maxHeartbeats 1000000

/-!
Shallow embedding of the numeric-set algebra implemented in
`src/faebryk/libs/sets/numeric_sets.py` and of the part-picker control flow in
`src/faebryk/libs/picker/picker.py`, together with proofs settling the frozen
claims about this code.

Modelling conventions:
* Python floats are idealized as extended rationals (`XQ`: the rationals plus
  the two infinities `float("-inf")` and `float("inf")`).
  `float_round(value, ABS_DIGITS)` in the `Numeric_Interval` constructor
  (rounding to 15 fractional digits) is modelled as the identity on exact
  rationals.
* Functions that can raise are modelled with `Except` or `Option`; Python
  boolean expressions become `Bool`-valued Lean functions.
* `Numeric_Interval_Disjoint` is represented by its `intervals` list.
-/

/-- `EPSILON_REL = 10 ** -(REL_DIGITS - 1)` with `REL_DIGITS = 7`. -/
def EPSILON_REL : ℚ := 1 / 1000000

/-- A Python numeric scalar: a rational, `float("-inf")` or `float("inf")`. -/
inductive XQ where
  | ninf : XQ
  | fin (q : ℚ) : XQ
  | pinf : XQ
deriving DecidableEq

/-- `a <= b` on scalars (Python comparison, extended to the infinities). -/
def XQ.le : XQ → XQ → Bool
  | .ninf, _ => true
  | _, .ninf => false
  | _, .pinf => true
  | .pinf, _ => false
  | .fin a, .fin b => decide (a ≤ b)

/-- `a < b` on scalars. -/
def XQ.lt (a b : XQ) : Bool := !(XQ.le b a)

/-- Python `max(a, b)` on scalars. -/
def XQ.xmax (a b : XQ) : XQ := if XQ.le a b then b else a

/-- Python `min(a, b)` on scalars. -/
def XQ.xmin (a b : XQ) : XQ := if XQ.le a b then a else b

/-- Rational absolute value, written as an `if` so that proofs can unfold it
on concrete values; `qabs_eq_abs` below identifies it with `|q|`. -/
def qabs (q : ℚ) : ℚ := if q ≤ 0 then -q else q

/-- Rational maximum, written as an `if`; `qmax_eq_max` identifies it with
`max a b`. -/
def qmax (a b : ℚ) : ℚ := if a ≤ b then b else a

/-- `math.isclose(a, b, rel_tol=EPSILON_REL)` (default `abs_tol = 0`):
equal infinities are close, a finite and an infinite value never are, and two
finite values are close iff `|a - b| <= EPSILON_REL * max(|a|, |b|)`. -/
def XQ.isclose : XQ → XQ → Bool
  | .fin a, .fin b => decide (qabs (a - b) ≤ EPSILON_REL * qmax (qabs a) (qabs b))
  | a, b => decide (a = b)

/-- Scalar addition. The mixed-infinite conventions are irrelevant here: the
theorems below only use `add` on finite operands. -/
def XQ.add : XQ → XQ → XQ
  | .fin a, .fin b => .fin (a + b)
  | .ninf, _ => .ninf
  | .pinf, _ => .pinf
  | _, .ninf => .ninf
  | _, .pinf => .pinf

/-- Scalar subtraction; only the finite case is reached in the theorems. -/
def XQ.sub : XQ → XQ → XQ
  | .fin a, .fin b => .fin (a - b)
  | .ninf, _ => .ninf
  | .pinf, _ => .pinf
  | _, .ninf => .pinf
  | _, .pinf => .ninf

/-- Scalar multiplication; only the finite case is reached in the theorems. -/
def XQ.mul : XQ → XQ → XQ
  | .fin a, .fin b => .fin (a * b)
  | a, _ => a

/-- Scalar division; only the finite case is reached in the theorems. -/
def XQ.div : XQ → XQ → XQ
  | .fin a, .fin b => .fin (a / b)
  | a, _ => a

/-- `1 / x` as used by `Numeric_Interval.op_invert`: `1 / inf = 1 / -inf = 0`
(Python `-0.0 == 0.0`).  `op_invert` never divides by a finite zero. -/
def XQ.inv : XQ → XQ
  | .ninf => .fin 0
  | .pinf => .fin 0
  | .fin q => .fin q⁻¹

/-- `Numeric_Interval`: a closed interval; fields `lo`/`hi` model the source
attributes `_min`/`_max` (float rounding to 15 digits modelled as identity). -/
structure Numeric_Interval where
  lo : XQ
  hi : XQ
deriving DecidableEq

/-- The preconditions enforced by `Numeric_Interval.__init__`:
`min <= max`, `min != inf`, `max != -inf`. -/
def Numeric_Interval.validB (i : Numeric_Interval) : Bool :=
  XQ.le i.lo i.hi && !(decide (i.lo = XQ.pinf)) && !(decide (i.hi = XQ.ninf))

/-- `Numeric_Interval.__contains__`: `lo <= x <= hi`, or `x` close to either
bound under `EPSILON_REL`. -/
def Numeric_Interval.contains (i : Numeric_Interval) (x : XQ) : Bool :=
  (XQ.le i.lo x && XQ.le x i.hi) || XQ.isclose i.lo x || XQ.isclose i.hi x

/-- Exact (tolerance-free) interval membership `lo <= x <= hi`; used to state
the amended normalisation claim. -/
def Numeric_Interval.exactContains (i : Numeric_Interval) (x : XQ) : Bool :=
  XQ.le i.lo x && XQ.le x i.hi

/-- `Numeric_Interval.is_subset_of`, with the source's exact operator
precedence: `A or (B and C) or D` where `A = self.lo >= other.lo`,
`B = isclose(self.lo, other.lo)`, `C = self.hi <= other.hi`,
`D = isclose(self.hi, other.hi)`. -/
def Numeric_Interval.is_subset_of (self other : Numeric_Interval) : Bool :=
  XQ.le other.lo self.lo
    || (XQ.isclose self.lo other.lo && XQ.le self.hi other.hi)
    || XQ.isclose self.hi other.hi

/-- Modelled from the spec: the intended subset test
`(self.lo >= other.lo or close) and (self.hi <= other.hi or close)`
that the spec declares canonical for `is_subset_of`. -/
def is_subset_of_spec (self other : Numeric_Interval) : Bool :=
  (XQ.le other.lo self.lo || XQ.isclose self.lo other.lo)
    && (XQ.le self.hi other.hi || XQ.isclose self.hi other.hi)

/-- `Numeric_Interval.__eq__`: both bounds close under `EPSILON_REL`. -/
def Numeric_Interval.pyEq (a b : Numeric_Interval) : Bool :=
  XQ.isclose a.lo b.lo && XQ.isclose a.hi b.hi

/-- `Numeric_Interval.__hash__` is `hash((self._min, self._max))`; the Python
tuple hash is modelled by the exact bound pair itself (its hash key). -/
def Numeric_Interval.hashKey (i : Numeric_Interval) : XQ × XQ := (i.lo, i.hi)

/-- `Numeric_Interval.as_center_rel`: `(min, 0.0)` for a singleton, otherwise
`center = (min + max) / 2` and `rel = (max - min) / 2 / center`, except
`rel = (max - min) / 2` when `center == 0`. -/
def Numeric_Interval.as_center_rel (i : Numeric_Interval) : XQ × XQ :=
  if i.lo = i.hi then (i.lo, XQ.fin 0)
  else
    let center := XQ.div (XQ.add i.lo i.hi) (XQ.fin 2)
    if center = XQ.fin 0 then (center, XQ.div (XQ.sub i.hi i.lo) (XQ.fin 2))
    else (center, XQ.div (XQ.div (XQ.sub i.hi i.lo) (XQ.fin 2)) center)

/-- Modelled from the spec: `as_center_rel` as the claim states it, with
`rel = (hi - lo) / (2 * |center|)` (absolute value of the center), and
`rel = (hi - lo) / 2` when the center is zero. -/
def as_center_rel_claim (lo hi : ℚ) : ℚ × ℚ :=
  if (lo + hi) / 2 = 0 then ((lo + hi) / 2, (hi - lo) / 2)
  else ((lo + hi) / 2, (hi - lo) / (2 * qabs ((lo + hi) / 2)))

/-- `Numeric_Interval.maybe_merge_interval`: orient `left`/`right` by lower
bound; if `right.lo in self` (note: `self`, as in the source), return the
single merged interval, else both in order. -/
def Numeric_Interval.maybe_merge_interval (self other : Numeric_Interval) :
    List Numeric_Interval :=
  let left := if XQ.le self.lo other.lo then self else other
  let right := if XQ.le self.lo other.lo then other else self
  if self.contains right.lo then [⟨left.lo, XQ.xmax left.hi right.hi⟩]
  else [left, right]

/-- Sort key relation of `sorted(non_empty_intervals, key=lambda e: e.min_elem)`. -/
def rLo (a b : Numeric_Interval) : Prop := XQ.le a.lo b.lo = true

instance : DecidableRel rLo :=
  fun a b => inferInstanceAs (Decidable (XQ.le a.lo b.lo = true))

instance : IsTotal Numeric_Interval rLo :=
  ⟨fun a b => by
    unfold rLo
    cases a.lo <;> cases b.lo <;> simp [XQ.le] <;> exact le_total _ _⟩

instance : IsTrans Numeric_Interval rLo :=
  ⟨fun a b c hab hbc => by
    unfold rLo at *
    cases ha : a.lo <;> cases hb : b.lo <;> cases hc : c.lo <;>
      simp_all [XQ.le] <;> linarith⟩

/-- The `gen_merge` fold of `Numeric_Interval_Disjoint.__init__`: left-to-right
fold of `maybe_merge_interval` over the sorted interval list, yielding every
element but the running `last`. -/
def gen_merge : Numeric_Interval → List Numeric_Interval → List Numeric_Interval
  | last, [] => [last]
  | last, i :: rest =>
      (last.maybe_merge_interval i).dropLast
        ++ gen_merge ((last.maybe_merge_interval i).getLastD i) rest

/-- A disjoint union, represented by its `intervals` list. -/
abbrev NID := List Numeric_Interval

/-- Run the `gen_merge` fold on an already-sorted list (with `last`
initialised to `None`, i.e. the first element). -/
def gen_merge_all : List Numeric_Interval → List Numeric_Interval
  | [] => []
  | x :: xs => gen_merge x xs

/-- The normalisation performed by `Numeric_Interval_Disjoint.__init__` on the
flat interval list: stable sort by lower bound, then the `gen_merge` fold.
(Python's `sorted` is a stable sort, as is `List.insertionSort`.) -/
def normalizeNI (l : List Numeric_Interval) : NID :=
  gen_merge_all (List.insertionSort rLo l)

/-- One constructor argument of `Numeric_Interval_Disjoint.__init__`: either a
single interval or a nested disjoint union (given by its interval list).
Plain intervals are never empty (`Numeric_Interval.is_empty` returns `False`);
an empty nested union flattens to nothing. -/
inductive NSetArg where
  | ival (i : Numeric_Interval) : NSetArg
  | dis (intervals : List Numeric_Interval) : NSetArg

/-- `gen_flat_non_empty` of `Numeric_Interval_Disjoint.__init__`. -/
def flattenArgs : List NSetArg → List Numeric_Interval
  | [] => []
  | .ival i :: rest => i :: flattenArgs rest
  | .dis l :: rest => l ++ flattenArgs rest

/-- `Numeric_Interval_Disjoint.__init__`: flatten, stable-sort by lower bound,
fold with `maybe_merge_interval`. -/
def NID_init (args : List NSetArg) : NID :=
  normalizeNI (flattenArgs args)

/-- `bisect(self.intervals, item, key=lambda r: r.min_elem)` (i.e.
`bisect_right`); on a list sorted by lower bound this is the number of
intervals whose lower bound is `<= item`, which the binary search computes. -/
def bisect_by_lo (l : List Numeric_Interval) (x : XQ) : Nat :=
  (l.takeWhile (fun r => XQ.le r.lo x)).length

/-- `Numeric_Interval_Disjoint.__contains__`: bisect by lower bound, then test
membership in the interval left of the insertion point. -/
def NID_contains (l : NID) (x : XQ) : Bool :=
  let index := bisect_by_lo l x
  if index = 0 then false
  else (l.getD (index - 1) ⟨XQ.fin 0, XQ.fin 0⟩).contains x

/-- `Numeric_Interval_Disjoint.__eq__`: same length and pairwise
tolerance-equal constituents. -/
def NID_pyEq : NID → NID → Bool
  | [], [] => true
  | a :: as1, b :: bs1 => a.pyEq b && NID_pyEq as1 bs1
  | _, _ => false

/-- `Numeric_Interval.op_invert` (`1/x`), returning the interval list of the
constructed `Numeric_Interval_Disjoint`. -/
def Numeric_Interval.op_invert (i : Numeric_Interval) : NID :=
  if i.lo = XQ.fin 0 ∧ i.hi = XQ.fin 0 then []
  else if XQ.lt i.lo (XQ.fin 0) = true ∧ XQ.lt (XQ.fin 0) i.hi = true then
    normalizeNI [⟨XQ.ninf, XQ.inv i.lo⟩, ⟨XQ.inv i.hi, XQ.pinf⟩]
  else if XQ.lt i.lo (XQ.fin 0) = true ∧ i.hi = XQ.fin 0 then
    normalizeNI [⟨XQ.ninf, XQ.inv i.lo⟩]
  else if i.lo = XQ.fin 0 ∧ XQ.lt (XQ.fin 0) i.hi = true then
    normalizeNI [⟨XQ.inv i.hi, XQ.pinf⟩]
  else
    normalizeNI [⟨XQ.inv i.hi, XQ.inv i.lo⟩]

/-- `Numeric_Interval.op_intersect_interval`: `[max(lo), min(hi)]`; if the
lower exceeds the upper but both are close under `EPSILON_REL`, the degenerate
singleton (`Numeric_Set_Discrete(min_)`); otherwise the empty set. -/
def Numeric_Interval.op_intersect_interval (self other : Numeric_Interval) : NID :=
  let m := XQ.xmax self.lo other.lo
  let M := XQ.xmin self.hi other.hi
  if XQ.le m M then normalizeNI [⟨m, M⟩]
  else if XQ.isclose m M then normalizeNI [⟨m, m⟩]
  else []

/-- `Numeric_Interval.op_difference_interval`: the four cases (disjoint, fully
covered, inner overlap, one-sided overlap), each wrapped in the
`Numeric_Interval_Disjoint` constructor as in the source. -/
def Numeric_Interval.op_difference_interval (self other : Numeric_Interval) : NID :=
  if XQ.lt self.hi other.lo || XQ.lt other.hi self.lo then
    normalizeNI [self]
  else if XQ.le other.lo self.lo && XQ.le self.hi other.hi then
    []
  else if XQ.lt self.lo other.lo && XQ.lt other.hi self.hi then
    normalizeNI [⟨self.lo, other.lo⟩, ⟨other.hi, self.hi⟩]
  else if XQ.lt self.lo other.lo then
    normalizeNI [⟨self.lo, other.lo⟩]
  else
    normalizeNI [⟨other.hi, self.hi⟩]

/-- `Numeric_Interval_Disjoint.op_intersect_interval`: intersect each
constituent with the interval and renormalise. -/
def NID_op_intersect_interval (u : NID) (o : Numeric_Interval) : NID :=
  normalizeNI (u.flatMap (fun r => r.op_intersect_interval o))

/-- `Numeric_Interval_Disjoint.op_union_intervals`: concatenate, renormalise. -/
def NID_op_union_intervals (a b : NID) : NID :=
  normalizeNI (a ++ b)

/-- Errors of `Numeric_Interval_Disjoint.closest_elem`. -/
inductive ClosestErr where
  | emptyErr : ClosestErr
  | assertErr : ClosestErr
deriving DecidableEq

/-- `Numeric_Interval_Disjoint.closest_elem`.  The source's
`assert left_bound and right_bound` uses Python truthiness: a bound equal to
`0` is falsy, so the assert fails (modelled by `ClosestErr.assertErr`). -/
def NID_closest_elem (l : NID) (target : XQ) : Except ClosestErr XQ :=
  if l.isEmpty then .error .emptyErr
  else
    let index := bisect_by_lo l target
    if index = 0 then .ok ((l.getD 0 ⟨XQ.fin 0, XQ.fin 0⟩).lo)
    else
      let left := l.getD (index - 1) ⟨XQ.fin 0, XQ.fin 0⟩
      if left.contains target then .ok target
      else if index < l.length then
        let rb := (l.getD index ⟨XQ.fin 0, XQ.fin 0⟩).lo
        if left.hi = XQ.fin 0 ∨ rb = XQ.fin 0 then .error .assertErr
        else if XQ.lt (XQ.sub target left.hi) (XQ.sub rb target) then .ok left.hi
        else .ok rb
      else .ok left.hi

/-- Strict-gap chain invariant of a disjoint union's interval list: each
constituent's upper bound lies strictly below the next one's lower bound. -/
def ChainB : List Numeric_Interval → Prop
  | [] => True
  | [_] => True
  | a :: b :: rest => XQ.lt a.hi b.lo = true ∧ ChainB (b :: rest)

/-- `Tree[Module]` of the picker: a module id with subtrees. -/
inductive PickTree where
  | node (entries : List (Nat × PickTree)) : PickTree

/-- The child entries of a pick tree node. -/
def PickTree.entries : PickTree → List (Nat × PickTree)
  | .node es => es

/-- Weight of a tree, for the termination measure of the picking loop. -/
def treeWeight : PickTree → Nat
  | .node [] => 1
  | .node ((_, t) :: rest) => treeWeight t + 1 + treeWeight (.node rest)

/-- Weight of a working set of `(module, subtree)` entries. -/
def candWeight : List (Nat × PickTree) → Nat
  | [] => 0
  | (_, t) :: rest => treeWeight t + 1 + candWeight rest

/-- The loop of `pick_topologically`.  `pick m = none` models a successful
`module.get_trait(F.has_picker).pick(solver)`, `pick m = some e` models that
call raising `PickError e`.  The working set is kept in pop order (Python's
`dict.popitem` pops the most recently inserted entry, so a spliced subtree's
entries are popped next, latest child first — hence `reverse`). -/
def pick_topologically (pick : Nat → Option Nat) :
    List (Nat × PickTree) → Except Nat Unit
  | [] => .ok ()
  | (m, t) :: rest =>
    match pick m with
    | none => pick_topologically pick rest
    | some e =>
      if t.entries.isEmpty then .error e
      else pick_topologically pick (t.entries.reverse ++ rest)
termination_by cands => candWeight cands
decreasing_by
  · simp only [candWeight]; omega
  · have happ : ∀ a b : List (Nat × PickTree),
        candWeight (a ++ b) = candWeight a + candWeight b := by
      intro a b
      induction a with
      | nil => simp [candWeight]
      | cons p rest ih => cases p; simp [candWeight, ih]; omega
    have hrev : ∀ a : List (Nat × PickTree),
        candWeight a.reverse = candWeight a := by
      intro a
      induction a with
      | nil => rfl
      | cons p rest ih =>
        cases p
        simp [candWeight, List.reverse_cons, happ, ih]
        omega
    have hnode : ∀ es : List (Nat × PickTree),
        treeWeight (.node es) = candWeight es + 1 := by
      intro es
      induction es with
      | nil => simp [treeWeight, candWeight]
      | cons p rest ih => cases p; simp [treeWeight, candWeight, ih]; omega
    have hw : treeWeight t = candWeight t.entries + 1 := by
      cases t with
      | node es => simpa [PickTree.entries] using hnode es
    simp only [candWeight, happ, hrev]
    rw [hw]
    omega

/-- A module as seen by `pick_module_by_params`: whether it already has the
`has_part_picked` trait, and its direct parameters indexed by name. -/
structure PModule where
  hasPartPicked : Bool
  params : List (String × Nat)
deriving DecidableEq

/-- `PickerOption` (frozen dataclass): `part` is modelled by an id; `filter` is
a function, modelled by an id interpreted through an environment. -/
structure PickerOption where
  part : Nat
  params : Option (List (String × Nat))
  filter : Option Nat
  pinmap : Option (List (String × Nat))
  info : Option (List (String × String))
deriving DecidableEq

/-- The dataclass-generated `__eq__` of `PickerOption`: it compares the full
field tuple `(part, params, filter, pinmap, info)`. -/
def PickerOption.dataclassEq (a b : PickerOption) : Bool := decide (a = b)

/-- `PickerOption.__hash__` is `hash(self.part)`: the hash key is the part
alone. -/
def PickerOption.hashKey (o : PickerOption) : Nat := o.part

/-- Predicates handed to the solver: `And(Is(param, lit), ...)` or the
tautology `Or(True)`. -/
inductive PPredicate where
  | andIs (pairs : List (Nat × Nat)) : PPredicate
  | orTrue : PPredicate
deriving DecidableEq

/-- Dict lookup `params[k]` (`none` models `KeyError`). -/
def lookupKey (l : List (String × Nat)) (k : String) : Option Nat :=
  match l.find? (fun p => p.1 == k) with
  | none => none
  | some p => some p.2

/-- Predicate construction for one option: for each `(k, v)` in
`o.params or {}` with `k` not starting with an underscore, look up
`params[k]` and form `Is(param, v)`; an empty list yields `Or(True)`,
otherwise the conjunction.  `none` models a `KeyError`. -/
def buildPredicate (m : PModule) (o : PickerOption) : Option PPredicate :=
  match (((o.params).getD []).filter (fun kv => !(kv.1.startsWith "_"))).mapM
      (fun kv => (lookupKey m.params kv.1).map (fun p => (p, kv.2))) with
  | none => none
  | some [] => some .orTrue
  | some pairs => some (.andIs pairs)

/-- `predicates[o] = p` on the option-keyed dict: overwrite in place if the key
is present (dataclass equality), else append. -/
def upsert (d : List (PickerOption × PPredicate)) (k : PickerOption)
    (v : PPredicate) : List (PickerOption × PPredicate) :=
  if d.any (fun p => p.1 == k) then d.map (fun p => if p.1 == k then (k, v) else p)
  else d ++ [(k, v)]

/-- The predicate-building loop of `pick_module_by_params` over the filtered
options, threading the dict; `none` models the loop raising `KeyError`. -/
def buildPredicates (m : PModule) :
    List PickerOption → List (PickerOption × PPredicate) →
    Option (List (PickerOption × PPredicate))
  | [], acc => some acc
  | o :: rest, acc =>
    match buildPredicate m o with
    | none => none
    | some p => buildPredicates m rest (upsert acc o p)

/-- `[o for o in options if not o.filter or o.filter(module)]`. -/
def filteredOptions (filterSem : Nat → PModule → Bool) (m : PModule)
    (options : List PickerOption) : List PickerOption :=
  options.filter (fun o => match o.filter with
    | none => true
    | some f => filterSem f m)

/-- Errors of `pick_module_by_params`. -/
inductive PickErr where
  | pickErrorParams : PickErr
  | keyError : PickErr
deriving DecidableEq

/-- Outcomes of `pick_module_by_params`: an early no-op return for an
already-picked module, or a picked option (recording whether a pinmap trait
was attached).  Part attachment happens only in the `picked` outcome, exactly
as all module mutations in the source happen after the last raise site. -/
inductive PickOutcome where
  | alreadyPicked : PickOutcome
  | picked (option : PickerOption) (pinmapAttached : Bool) : PickOutcome
deriving DecidableEq

/-- `pick_module_by_params`: no-op if already picked; filter the options;
build the predicate dict (possible `KeyError`); raise `PickErrorParams` if the
dict is empty; call `solver.assert_any_predicate` on the `(predicate, option)`
pairs; raise `PickErrorParams` if no true predicates come back; otherwise pick
the first returned option and attach. -/
def pick_module_by_params (filterSem : Nat → PModule → Bool)
    (solver : List (PPredicate × PickerOption) → List (PPredicate × PickerOption))
    (m : PModule) (options : List PickerOption) : Except PickErr PickOutcome :=
  if m.hasPartPicked then .ok .alreadyPicked
  else
    (buildPredicates m (filteredOptions filterSem m options) []).elim
      (.error .keyError)
      (fun preds =>
        if preds.length = 0 then .error .pickErrorParams
        else
          let result := solver (preds.map (fun kp => (kp.2, kp.1)))
          if hr : result = [] then .error .pickErrorParams
          else .ok (.picked (result.head hr).2 (result.head hr).2.pinmap.isSome))

-- ~~~~~~~~~~~~~~~~~~~~~~~~~~~~~~ theorems ~~~~~~~~~~~~~~~~~~~~~~~~~~~~~~

theorem XQ.le_refl (a : XQ) : XQ.le a a = true := by
  cases a <;> simp [XQ.le]

theorem XQ.le_trans {a b c : XQ} (h1 : XQ.le a b = true) (h2 : XQ.le b c = true) :
    XQ.le a c = true := by
  cases a <;> cases b <;> cases c <;> simp_all [XQ.le] <;> linarith

theorem XQ.le_total_t (a b : XQ) : XQ.le a b = true ∨ XQ.le b a = true := by
  cases a <;> cases b <;> simp [XQ.le]
  exact le_total _ _

theorem XQ.lt_eq_true {a b : XQ} : XQ.lt a b = true ↔ XQ.le b a = false := by
  simp [XQ.lt]

theorem XQ.le_of_not_le {a b : XQ} (h : XQ.le a b = false) : XQ.le b a = true := by
  rcases XQ.le_total_t a b with h1 | h1
  · rw [h1] at h; exact absurd h (by simp)
  · exact h1

theorem XQ.le_of_lt {a b : XQ} (h : XQ.lt a b = true) : XQ.le a b = true :=
  XQ.le_of_not_le (XQ.lt_eq_true.mp h)

theorem XQ.lt_of_lt_of_le {a b c : XQ} (h1 : XQ.lt a b = true)
    (h2 : XQ.le b c = true) : XQ.lt a c = true := by
  rw [XQ.lt_eq_true] at h1 ⊢
  cases h : XQ.le c a
  · rfl
  · exact absurd (XQ.le_trans h2 h) (by simp [h1])

theorem XQ.lt_of_le_of_lt {a b c : XQ} (h1 : XQ.le a b = true)
    (h2 : XQ.lt b c = true) : XQ.lt a c = true := by
  rw [XQ.lt_eq_true] at h2 ⊢
  cases h : XQ.le c a
  · rfl
  · exact absurd (XQ.le_trans h h1) (by simp [h2])

theorem XQ.le_xmax_left (a b : XQ) : XQ.le a (XQ.xmax a b) = true := by
  unfold XQ.xmax
  split
  · assumption
  · exact XQ.le_refl a

theorem XQ.le_xmax_right (a b : XQ) : XQ.le b (XQ.xmax a b) = true := by
  unfold XQ.xmax
  split
  · exact XQ.le_refl b
  · next h => exact XQ.le_of_not_le (by simpa using h)

theorem XQ.xmax_choice (a b : XQ) : XQ.xmax a b = a ∨ XQ.xmax a b = b := by
  unfold XQ.xmax
  split
  · right; rfl
  · left; rfl

theorem qabs_eq_abs (q : ℚ) : qabs q = |q| := by
  unfold qabs
  rcases le_or_lt q 0 with h | h
  · rw [if_pos h, abs_of_nonpos h]
  · rw [if_neg (not_le.mpr h), abs_of_pos h]

theorem qmax_eq_max (a b : ℚ) : qmax a b = max a b := by
  unfold qmax
  rcases le_or_lt a b with h | h
  · rw [if_pos h, max_eq_right h]
  · rw [if_neg (not_le.mpr h), max_eq_left h.le]

theorem XQ.isclose_fin_iff {a b : ℚ} :
    XQ.isclose (.fin a) (.fin b) = true ↔ |a - b| ≤ EPSILON_REL * max |a| |b| := by
  simp [XQ.isclose, qabs_eq_abs, qmax_eq_max]

theorem XQ.isclose_refl (a : XQ) : XQ.isclose a a = true := by
  cases a with
  | fin q =>
    rw [XQ.isclose_fin_iff, sub_self, abs_zero, max_self,
      show EPSILON_REL = 1 / 1000000 from rfl]
    positivity
  | ninf => rfl
  | pinf => rfl

theorem XQ.isclose_symm {a b : XQ} (h : XQ.isclose a b = true) :
    XQ.isclose b a = true := by
  cases a <;> cases b <;> simp_all [XQ.isclose, qabs_eq_abs, qmax_eq_max]
  rw [abs_sub_comm, max_comm]
  exact h

/-- Claim C1 (code_bug evaluation): at `self = [5, 10]`, `other = [3, 4]` the
source's `is_subset_of` returns `True` (the unparenthesised `or`/`and` chain
short-circuits on `self.lo >= other.lo`), while the claimed conjunction
`(lo-condition) and (hi-condition)` is `False`: `[5,10]` is not a subset of
`[3,4]`. -/
theorem claim_C1_code_eval :
    Numeric_Interval.is_subset_of ⟨XQ.fin 5, XQ.fin 10⟩ ⟨XQ.fin 3, XQ.fin 4⟩ = true ∧
    is_subset_of_spec ⟨XQ.fin 5, XQ.fin 10⟩ ⟨XQ.fin 3, XQ.fin 4⟩ = false := by
  constructor
  · norm_num [Numeric_Interval.is_subset_of, XQ.le]
  · norm_num [is_subset_of_spec, XQ.le, XQ.isclose, qabs, qmax, EPSILON_REL]

/-- Claim C5 counterexample: for the interval `[-3, -1]` the code returns the
signed `rel = -1/2` (it divides by `center`, not `|center|`), while the
claim's formula with `|center|` gives `+1/2`. -/
theorem claim_C5_counterexample :
    Numeric_Interval.as_center_rel ⟨XQ.fin (-3), XQ.fin (-1)⟩ =
      (XQ.fin (-2), XQ.fin (-(1 / 2))) ∧
    as_center_rel_claim (-3) (-1) = (-2, 1 / 2) ∧
    (XQ.fin (-(1 / 2)) : XQ) ≠ XQ.fin (1 / 2) := by
  refine ⟨?_, ?_, ?_⟩
  · norm_num [Numeric_Interval.as_center_rel, XQ.add, XQ.sub, XQ.div,
      XQ.fin.injEq, Prod.ext_iff]
  · norm_num [as_center_rel_claim, qabs, Prod.ext_iff]
  · simp only [ne_eq, XQ.fin.injEq]
    norm_num

/-- Claim C5 (amended): for every finite interval `[a, b]`, `as_center_rel`
returns `center = (a + b) / 2` and the signed ratio
`rel = (b - a) / (2 * center)` (no absolute value; `rel` is negative when the
center is negative), with `rel = (b - a) / 2` when the center is zero. -/
theorem claim_C5_amended (a b : ℚ) (h : a ≤ b) :
    Numeric_Interval.as_center_rel ⟨XQ.fin a, XQ.fin b⟩ =
      (XQ.fin ((a + b) / 2),
        XQ.fin (if (a + b) / 2 = 0 then (b - a) / 2
                else (b - a) / (2 * ((a + b) / 2)))) := by
  unfold Numeric_Interval.as_center_rel
  simp only [XQ.add, XQ.sub, XQ.div, XQ.fin.injEq]
  split_ifs with hab hc hc
  · subst hab
    have ha0 : a = 0 := by linarith
    subst ha0
    norm_num
  · subst hab
    simp only [Prod.mk.injEq, XQ.fin.injEq]
    exact ⟨by ring, by simp⟩
  · rfl
  · simp only [Prod.mk.injEq, XQ.fin.injEq]
    refine ⟨by simp, div_div _ _ _⟩

/-- Claim C5 amended witness: the amended statement evaluated at `[1, 3]`. -/
theorem claim_C5_amended_witness :
    (1 : ℚ) ≤ 3 ∧
    Numeric_Interval.as_center_rel ⟨XQ.fin 1, XQ.fin 3⟩ =
      (XQ.fin ((1 + 3) / 2),
        XQ.fin (if ((1 : ℚ) + 3) / 2 = 0 then ((3 : ℚ) - 1) / 2
                else ((3 : ℚ) - 1) / (2 * (((1 : ℚ) + 3) / 2)))) :=
  ⟨by norm_num, claim_C5_amended 1 3 (by norm_num)⟩

/-- Claim C9 counterexample: two `PickerOption`s with the same part but
different `params` are NOT equal (the dataclass `__eq__` compares all
fields), refuting "equal iff parts equal"; they do hash alike. -/
theorem claim_C9_counterexample :
    PickerOption.dataclassEq
        ⟨1, some [("R", 5)], none, none, none⟩ ⟨1, none, none, none, none⟩ = false ∧
    PickerOption.hashKey ⟨1, some [("R", 5)], none, none, none⟩ =
      PickerOption.hashKey ⟨1, none, none, none, none⟩ := by
  refine ⟨by decide, rfl⟩

/-- Claim C9 (amended): `PickerOption` equality is full field-tuple equality
(`part`, `params`, `filter`, `pinmap`, `info`), as generated by the frozen
dataclass, while the hash is determined by `part` alone. -/
theorem claim_C9_amended (a b : PickerOption) :
    (PickerOption.dataclassEq a b = true ↔ a = b) ∧
    (a.part = b.part → PickerOption.hashKey a = PickerOption.hashKey b) := by
  constructor
  · simp [PickerOption.dataclassEq]
  · intro hp
    simpa [PickerOption.hashKey] using hp

/-- Claim C9 amended witness: the hash consequence applied at two concrete
options sharing a part. -/
theorem claim_C9_amended_witness :
    PickerOption.hashKey ⟨2, none, none, none, none⟩ =
      PickerOption.hashKey ⟨2, some [], none, none, none⟩ :=
  (claim_C9_amended ⟨2, none, none, none, none⟩ ⟨2, some [], none, none, none⟩).2 rfl

/-- Claim C10: `Numeric_Interval.__eq__` is tolerance-based while the hash key
uses the exact bounds, so there exist valid intervals that compare equal but
have different hash keys. -/
theorem claim_C10 :
    ∃ a b : Numeric_Interval, a.validB = true ∧ b.validB = true ∧
      a.pyEq b = true ∧ a.hashKey ≠ b.hashKey := by
  refine ⟨⟨XQ.fin 1, XQ.fin 2⟩, ⟨XQ.fin (10000001 / 10000000), XQ.fin 2⟩,
    ?_, ?_, ?_, ?_⟩
  · rw [Numeric_Interval.validB]
    norm_num [XQ.le]
    exact ⟨fun hcon => XQ.noConfusion hcon, fun hcon => XQ.noConfusion hcon⟩
  · rw [Numeric_Interval.validB]
    norm_num [XQ.le]
    exact ⟨fun hcon => XQ.noConfusion hcon, fun hcon => XQ.noConfusion hcon⟩
  · norm_num [Numeric_Interval.pyEq, XQ.isclose, qabs, qmax, EPSILON_REL]
  · simp only [Numeric_Interval.hashKey, ne_eq, Prod.mk.injEq, XQ.fin.injEq]
    norm_num

/-- Claim C8 (code_bug evaluation): for the normalised union
`[-1, 0] ∪ [5, 6]` and target `2`, `closest_elem` reaches
`assert left_bound and right_bound` with `left_bound == 0`, which is falsy in
Python, and raises `AssertionError` instead of returning the nearer bound
`0`. -/
theorem claim_C8_code_eval :
    NID_init [NSetArg.ival ⟨XQ.fin (-1), XQ.fin 0⟩,
              NSetArg.ival ⟨XQ.fin 5, XQ.fin 6⟩] =
      [⟨XQ.fin (-1), XQ.fin 0⟩, ⟨XQ.fin 5, XQ.fin 6⟩] ∧
    NID_closest_elem [⟨XQ.fin (-1), XQ.fin 0⟩, ⟨XQ.fin 5, XQ.fin 6⟩] (XQ.fin 2) =
      .error .assertErr := by
  constructor
  · norm_num [NID_init, flattenArgs, normalizeNI, gen_merge_all, List.insertionSort,
      List.orderedInsert, rLo, gen_merge, Numeric_Interval.maybe_merge_interval,
      Numeric_Interval.contains, XQ.le, XQ.isclose, XQ.xmax, qabs, qmax,
      EPSILON_REL]
  · norm_num [NID_closest_elem, bisect_by_lo, List.takeWhile,
      Numeric_Interval.contains, XQ.le, XQ.lt, XQ.sub, XQ.isclose, qabs, qmax,
      EPSILON_REL, List.getD]

/-- Claim C2 counterexample: for the bag `B = { [1, 2] }`, the scalar
`x = 1 - 1e-7` is a member of `[1, 2]` under the code's tolerance membership
(close to the lower bound), but the bisect-based `__contains__` of the
constructed union returns `False`, refuting the claimed equivalence. -/
theorem claim_C2_counterexample :
    NID_init [NSetArg.ival ⟨XQ.fin 1, XQ.fin 2⟩] = [⟨XQ.fin 1, XQ.fin 2⟩] ∧
    Numeric_Interval.contains ⟨XQ.fin 1, XQ.fin 2⟩
      (XQ.fin (9999999 / 10000000)) = true ∧
    NID_contains [⟨XQ.fin 1, XQ.fin 2⟩] (XQ.fin (9999999 / 10000000)) = false := by
  refine ⟨?_, ?_, ?_⟩
  · norm_num [NID_init, flattenArgs, normalizeNI, gen_merge_all, List.insertionSort,
      List.orderedInsert, gen_merge]
  · norm_num [Numeric_Interval.contains, XQ.le, XQ.isclose, qabs, qmax,
      EPSILON_REL]
  · norm_num [NID_contains, bisect_by_lo, List.takeWhile, XQ.le]

/-- Claim C3 counterexample: `(A \ B) ∩ B` is NOT empty for `A = [1, 3]`,
`B = [2, 4]`: the closed-interval difference keeps the shared endpoint, so
the result is the singleton `{2}`. -/
theorem claim_C3_counterexample :
    NID_op_intersect_interval
        (Numeric_Interval.op_difference_interval ⟨XQ.fin 1, XQ.fin 3⟩
          ⟨XQ.fin 2, XQ.fin 4⟩) ⟨XQ.fin 2, XQ.fin 4⟩ = [⟨XQ.fin 2, XQ.fin 2⟩] ∧
    NID_pyEq
      (NID_op_intersect_interval
        (Numeric_Interval.op_difference_interval ⟨XQ.fin 1, XQ.fin 3⟩
          ⟨XQ.fin 2, XQ.fin 4⟩) ⟨XQ.fin 2, XQ.fin 4⟩) [] = false := by
  constructor
  · norm_num [NID_op_intersect_interval, Numeric_Interval.op_difference_interval,
      Numeric_Interval.op_intersect_interval, normalizeNI, gen_merge_all, List.insertionSort,
      List.orderedInsert, rLo, gen_merge, XQ.le, XQ.lt, XQ.xmax, XQ.xmin,
      List.flatMap]
  · norm_num [NID_op_intersect_interval, Numeric_Interval.op_difference_interval,
      Numeric_Interval.op_intersect_interval, normalizeNI, gen_merge_all, List.insertionSort,
      List.orderedInsert, rLo, gen_merge, XQ.le, XQ.lt, XQ.xmax, XQ.xmin,
      List.flatMap, NID_pyEq]

/-- Claim C4 counterexample: for the unbounded interval `(-inf, inf)` (which
satisfies `lo < 0 < hi`), `op_invert` does not return the claimed two-piece
union: the pieces `(-inf, 0]` and `[0, inf)` touch and the constructor merges
them into the single full-line interval. -/
theorem claim_C4_counterexample :
    Numeric_Interval.op_invert ⟨XQ.ninf, XQ.pinf⟩ = [⟨XQ.ninf, XQ.pinf⟩] ∧
    Numeric_Interval.op_invert ⟨XQ.ninf, XQ.pinf⟩ ≠
      [⟨XQ.ninf, XQ.inv XQ.ninf⟩, ⟨XQ.inv XQ.pinf, XQ.pinf⟩] := by
  have hinv : Numeric_Interval.op_invert ⟨XQ.ninf, XQ.pinf⟩ = [⟨XQ.ninf, XQ.pinf⟩] := by
    rw [Numeric_Interval.op_invert]
    rw [if_neg (by rintro ⟨hcon, -⟩; exact XQ.noConfusion hcon)]
    norm_num [XQ.lt, XQ.le, XQ.inv, normalizeNI, gen_merge_all,
      List.insertionSort, List.orderedInsert, rLo, gen_merge,
      Numeric_Interval.maybe_merge_interval, Numeric_Interval.contains,
      XQ.xmax]
  refine ⟨hinv, ?_⟩
  rw [hinv]
  simp [XQ.inv]

/-- Claim C6: in `pick_topologically`, when the popped module's picker raises
`PickError e`: if the module's subtree is empty, the loop rethrows exactly
`e`; if the subtree is non-empty, `e` is not rethrown and the subtree's
entries are spliced into the working set, so picking continues with the
children. -/
theorem claim_C6 (pick : Nat → Option Nat) (m : Nat) (t : PickTree)
    (rest : List (Nat × PickTree)) (e : Nat) (h : pick m = some e) :
    (t.entries = [] → pick_topologically pick ((m, t) :: rest) = .error e) ∧
    (t.entries ≠ [] → pick_topologically pick ((m, t) :: rest) =
      pick_topologically pick (t.entries.reverse ++ rest)) := by
  constructor
  · intro ht
    rw [pick_topologically, h]
    simp [ht]
  · intro ht
    rw [pick_topologically, h]
    cases hte : t.entries with
    | nil => exact absurd hte ht
    | cons p ps => simp

/-- Claim C6 witness: a concrete run in which the root's picker fails, the
subtree is spliced in, and the child pick succeeds, so the loop returns
success instead of propagating the root's error. -/
theorem claim_C6_witness :
    pick_topologically (fun n => if n = 0 then some 7 else none)
        [(0, PickTree.node [(1, PickTree.node [])])] = .ok () := by
  have h := claim_C6 (fun n => if n = 0 then some 7 else none) 0
      (PickTree.node [(1, PickTree.node [])]) [] 7 (by simp)
  rw [h.2 (by simp [PickTree.entries])]
  rw [show (PickTree.entries (PickTree.node [(1, PickTree.node [])])).reverse ++
      ([] : List (Nat × PickTree)) = [(1, PickTree.node [])] by rfl]
  rw [pick_topologically]
  norm_num
  rw [pick_topologically]

theorem upsert_length_ge (d : List (PickerOption × PPredicate))
    (k : PickerOption) (v : PPredicate) : d.length ≤ (upsert d k v).length := by
  unfold upsert
  split
  · simp
  · simp

theorem buildPredicates_length (m : PModule) (opts : List PickerOption) :
    ∀ acc preds, buildPredicates m opts acc = some preds →
      acc.length ≤ preds.length := by
  induction opts with
  | nil =>
    intro acc preds h
    cases h
    exact Nat.le_refl _
  | cons o rest ih =>
    intro acc preds h
    unfold buildPredicates at h
    cases hb : buildPredicate m o with
    | none => rw [hb] at h; cases h
    | some p =>
      rw [hb] at h
      exact le_trans (upsert_length_ge acc o p) (ih _ _ h)

theorem buildPredicates_nonempty (m : PModule) (o : PickerOption)
    (rest : List PickerOption) (preds : List (PickerOption × PPredicate))
    (h : buildPredicates m (o :: rest) [] = some preds) : preds ≠ [] := by
  unfold buildPredicates at h
  cases hb : buildPredicate m o with
  | none => rw [hb] at h; cases h
  | some p =>
    rw [hb] at h
    have hlen := buildPredicates_length m rest (upsert [] o p) preds h
    have h1 : (upsert [] o p).length = 1 := by simp [upsert]
    intro hnil
    subst hnil
    rw [h1] at hlen
    simp at hlen

/-- Claim C7: `pick_module_by_params` raises `PickErrorParams` in exactly two
situations: the module is not already picked and either no option survives the
filter step (the predicate dict is empty), or the predicate dict builds
without `KeyError` and the solver's `assert_any_predicate` returns no true
predicates.  Any error outcome attaches nothing: only the `.ok .picked`
outcome carries an attachment (in the source, all module mutations happen
after the last raise site). -/
theorem claim_C7 (filterSem : Nat → PModule → Bool)
    (solver : List (PPredicate × PickerOption) → List (PPredicate × PickerOption))
    (m : PModule) (options : List PickerOption) :
    (pick_module_by_params filterSem solver m options = .error .pickErrorParams ↔
      (m.hasPartPicked = false ∧
        (filteredOptions filterSem m options = [] ∨
          (∃ preds,
            buildPredicates m (filteredOptions filterSem m options) [] = some preds ∧
            preds ≠ [] ∧ solver (preds.map (fun kp => (kp.2, kp.1))) = [])))) ∧
    (∀ err, pick_module_by_params filterSem solver m options = .error err →
      ∀ o b, pick_module_by_params filterSem solver m options ≠ .ok (.picked o b)) := by
  constructor
  · unfold pick_module_by_params
    cases hp : m.hasPartPicked
    · simp only [Bool.false_eq_true, if_false, eq_self_iff_true, true_and]
      cases hbuild : buildPredicates m (filteredOptions filterSem m options) [] with
      | none =>
        simp only [Option.elim_none, Except.error.injEq, reduceCtorEq, false_iff]
        rintro (hfil | ⟨preds, hpreds, -, -⟩)
        · rw [hfil] at hbuild
          cases hbuild
        · exact hpreds
      | some preds =>
        simp only [Option.elim_some]
        by_cases hlen : preds.length = 0
        · rw [if_pos hlen]
          simp only [true_iff]
          left
          cases hf : filteredOptions filterSem m options with
          | nil => rfl
          | cons o rest =>
            rw [hf] at hbuild
            have hne := buildPredicates_nonempty m o rest preds hbuild
            exact absurd (List.length_eq_zero.mp hlen) hne
        · rw [if_neg hlen]
          by_cases hsol : solver (preds.map (fun kp => (kp.2, kp.1))) = []
          · rw [dif_pos hsol]
            simp only [true_iff]
            exact Or.inr ⟨preds, rfl, fun hnil => hlen (by rw [hnil]; rfl), hsol⟩
          · rw [dif_neg hsol]
            simp only [reduceCtorEq, false_iff]
            rintro (hfil | ⟨preds2, hpreds2, hne2, hsol2⟩)
            · rw [hfil] at hbuild
              cases hbuild
              exact hlen rfl
            · injection hpreds2 with he
              subst he
              exact hsol hsol2
    · simp
  · intro err herr o b
    rw [herr]
    simp

/-- Claim C7 witness: with no options at all, nothing survives the filter and
the params error is raised (via the right-to-left direction of the iff). -/
theorem claim_C7_witness :
    pick_module_by_params (fun _ _ => true) (fun l => l) ⟨false, []⟩ [] =
      .error .pickErrorParams :=
  (claim_C7 (fun _ _ => true) (fun l => l) ⟨false, []⟩ []).1.mpr ⟨rfl, Or.inl rfl⟩

theorem XQ.ninf_le (x : XQ) : XQ.le XQ.ninf x = true := by
  cases x <;> rfl

theorem XQ.le_pinf (x : XQ) : XQ.le x XQ.pinf = true := by
  cases x <;> rfl

theorem XQ.ne_of_lt {a b : XQ} (h : XQ.lt a b = true) : a ≠ b := by
  intro hcon
  subst hcon
  rw [XQ.lt_eq_true] at h
  exact absurd (XQ.le_refl a) (by simp [h])

theorem XQ.ne_of_lt' {a b : XQ} (h : XQ.lt a b = true) : b ≠ a :=
  fun hcon => XQ.ne_of_lt h hcon.symm

theorem XQ.lt_irrefl (a : XQ) : XQ.lt a a = false := by
  rw [XQ.lt, XQ.le_refl]
  rfl

theorem XQ.not_lt_of_lt {a b : XQ} (h : XQ.lt a b = true) :
    XQ.lt b a = false := by
  rw [XQ.lt, XQ.le_of_lt h]
  rfl

theorem not_isclose_cross {a b : ℚ} (ha : a ≤ 0) (hb : 0 ≤ b) (hne : a ≠ b) :
    XQ.isclose (.fin a) (.fin b) = false := by
  simp only [XQ.isclose, decide_eq_false_iff_not, qabs_eq_abs, qmax_eq_max,
    not_le]
  have hab : a < b := lt_of_le_of_ne (le_trans ha hb) hne
  have h1 : |a - b| = b - a := by
    rw [abs_sub_comm]
    exact abs_of_nonneg (by linarith)
  have h2 : |a| = -a := abs_of_nonpos ha
  have h3 : |b| = b := abs_of_nonneg hb
  rw [h1, h2, h3, show EPSILON_REL = 1 / 1000000 from rfl]
  rcases le_total (-a) b with hm | hm
  · rw [max_eq_right hm]
    linarith
  · rw [max_eq_left hm]
    linarith

theorem XQ.isclose_ninf_fin (q : ℚ) : XQ.isclose XQ.ninf (XQ.fin q) = false := rfl

theorem XQ.isclose_fin_pinf (q : ℚ) : XQ.isclose (XQ.fin q) XQ.pinf = false := rfl

theorem maybe_merge_left {self other : Numeric_Interval}
    (h : XQ.le self.lo other.lo = true) :
    self.maybe_merge_interval other =
      if self.contains other.lo = true then [⟨self.lo, XQ.xmax self.hi other.hi⟩]
      else [self, other] := by
  unfold Numeric_Interval.maybe_merge_interval
  simp only [h, if_true]

theorem normalizeNI_nil : normalizeNI [] = [] := rfl

theorem normalizeNI_single (i : Numeric_Interval) : normalizeNI [i] = [i] := by
  unfold normalizeNI
  simp [List.insertionSort, List.orderedInsert, gen_merge_all, gen_merge]

theorem normalizeNI_pair {i j : Numeric_Interval} (hij : XQ.le i.lo j.lo = true) :
    normalizeNI [i, j] =
      if i.contains j.lo = true then [⟨i.lo, XQ.xmax i.hi j.hi⟩] else [i, j] := by
  unfold normalizeNI
  have hr : rLo i j := hij
  have hsort : List.insertionSort rLo [i, j] = [i, j] := by
    simp [List.insertionSort, List.orderedInsert, hr]
  rw [hsort]
  show gen_merge i [j] = _
  rw [show gen_merge i [j] = (i.maybe_merge_interval j).dropLast
      ++ gen_merge ((i.maybe_merge_interval j).getLastD j) [] from rfl]
  rw [maybe_merge_left hij]
  split
  · simp [gen_merge]
  · simp [gen_merge]

theorem invert_two_piece (lov hiv : XQ) (hlo : XQ.lt lov (XQ.fin 0) = true)
    (hhi : XQ.lt (XQ.fin 0) hiv = true) (hni : ¬(lov = XQ.ninf ∧ hiv = XQ.pinf)) :
    normalizeNI [⟨XQ.ninf, XQ.inv lov⟩, ⟨XQ.inv hiv, XQ.pinf⟩] =
      [⟨XQ.ninf, XQ.inv lov⟩, ⟨XQ.inv hiv, XQ.pinf⟩] := by
  rw [normalizeNI_pair (XQ.ninf_le _)]
  have hcon : Numeric_Interval.contains ⟨XQ.ninf, XQ.inv lov⟩ (XQ.inv hiv) = false := by
    rw [XQ.lt_eq_true] at hlo hhi
    cases lov with
    | pinf => simp [XQ.le] at hlo
    | ninf =>
      cases hiv with
      | pinf => exact absurd ⟨rfl, rfl⟩ hni
      | ninf => simp [XQ.le] at hhi
      | fin b =>
        simp only [XQ.le, decide_eq_false_iff_not, not_le] at hhi
        simp only [Numeric_Interval.contains, XQ.inv]
        rw [show XQ.le (XQ.fin b⁻¹) (XQ.fin 0) = false by
            simp only [XQ.le, decide_eq_false_iff_not, not_le]
            exact inv_pos.mpr hhi,
          not_isclose_cross (le_refl (0 : ℚ)) (le_of_lt (inv_pos.mpr hhi))
            (by intro hcon2; exact absurd hcon2.symm (ne_of_gt (inv_pos.mpr hhi))),
          XQ.isclose_ninf_fin]
        rfl
    | fin a =>
      simp only [XQ.le, decide_eq_false_iff_not, not_le] at hlo
      cases hiv with
      | ninf => simp [XQ.le] at hhi
      | pinf =>
        simp only [Numeric_Interval.contains, XQ.inv]
        rw [show XQ.le (XQ.fin 0) (XQ.fin a⁻¹) = false by
            simp only [XQ.le, decide_eq_false_iff_not, not_le]
            exact inv_lt_zero.mpr hlo,
          not_isclose_cross (le_of_lt (inv_lt_zero.mpr hlo)) (le_refl (0 : ℚ))
            (ne_of_lt (inv_lt_zero.mpr hlo)),
          XQ.isclose_ninf_fin]
        rfl
      | fin b =>
        simp only [XQ.le, decide_eq_false_iff_not, not_le] at hhi
        simp only [Numeric_Interval.contains, XQ.inv]
        rw [show XQ.le (XQ.fin b⁻¹) (XQ.fin a⁻¹) = false by
            simp only [XQ.le, decide_eq_false_iff_not, not_le]
            exact lt_of_lt_of_le (inv_lt_zero.mpr hlo) (le_of_lt (inv_pos.mpr hhi)),
          not_isclose_cross (le_of_lt (inv_lt_zero.mpr hlo))
            (le_of_lt (inv_pos.mpr hhi))
            (ne_of_lt (lt_trans (inv_lt_zero.mpr hlo) (inv_pos.mpr hhi))),
          XQ.isclose_ninf_fin]
        rfl
  rw [if_neg (by simp [hcon])]

/-- Claim C4 (amended): `op_invert` returns exactly the claimed case analysis,
except that for the full line `(-inf, inf)` (where `lo < 0 < hi`) the two
claimed pieces `(-inf, 1/lo]` and `[1/hi, inf)` touch at `0` and the
constructor merges them, so the result is the single interval `(-inf, inf)`
rather than a two-piece union. -/
theorem claim_C4_amended (i : Numeric_Interval) (hv : i.validB = true) :
    (i.lo = XQ.fin 0 ∧ i.hi = XQ.fin 0 → i.op_invert = []) ∧
    (XQ.lt i.lo (XQ.fin 0) = true ∧ XQ.lt (XQ.fin 0) i.hi = true ∧
        ¬(i.lo = XQ.ninf ∧ i.hi = XQ.pinf) →
      i.op_invert = [⟨XQ.ninf, XQ.inv i.lo⟩, ⟨XQ.inv i.hi, XQ.pinf⟩]) ∧
    (i.lo = XQ.ninf ∧ i.hi = XQ.pinf → i.op_invert = [⟨XQ.ninf, XQ.pinf⟩]) ∧
    (XQ.lt i.lo (XQ.fin 0) = true ∧ i.hi = XQ.fin 0 →
      i.op_invert = [⟨XQ.ninf, XQ.inv i.lo⟩]) ∧
    (i.lo = XQ.fin 0 ∧ XQ.lt (XQ.fin 0) i.hi = true →
      i.op_invert = [⟨XQ.inv i.hi, XQ.pinf⟩]) ∧
    ((XQ.lt (XQ.fin 0) i.lo = true ∨ XQ.lt i.hi (XQ.fin 0) = true) →
      i.op_invert = [⟨XQ.inv i.hi, XQ.inv i.lo⟩]) := by
  obtain ⟨ilo, ihi⟩ := i
  simp only [Numeric_Interval.op_invert]
  refine ⟨?_, ?_, ?_, ?_, ?_, ?_⟩
  · rintro ⟨h1, h2⟩
    rw [if_pos ⟨h1, h2⟩]
  · rintro ⟨hlo, hhi, hni⟩
    rw [if_neg (fun hcon => XQ.ne_of_lt hlo hcon.1), if_pos ⟨hlo, hhi⟩]
    exact invert_two_piece ilo ihi hlo hhi hni
  · rintro ⟨hl, hh⟩
    subst hl
    subst hh
    rw [if_neg (fun hcon => XQ.noConfusion hcon.1), if_pos ⟨rfl, rfl⟩]
    rw [normalizeNI_pair (XQ.ninf_le _)]
    rw [if_pos (by norm_num [Numeric_Interval.contains, XQ.le, XQ.inv])]
    simp [XQ.xmax, XQ.le_pinf, XQ.inv]
  · rintro ⟨hlo, hhi⟩
    subst hhi
    rw [if_neg (fun hcon => XQ.ne_of_lt hlo hcon.1),
      if_neg (fun hcon => by rw [XQ.lt_irrefl] at hcon; exact Bool.noConfusion hcon.2),
      if_pos ⟨hlo, rfl⟩]
    exact normalizeNI_single _
  · rintro ⟨hlo, hhi⟩
    subst hlo
    rw [if_neg (fun hcon => XQ.ne_of_lt hhi hcon.2.symm),
      if_neg (fun hcon => by rw [XQ.lt_irrefl] at hcon; exact Bool.noConfusion hcon.1),
      if_neg (fun hcon => by rw [XQ.lt_irrefl] at hcon; exact Bool.noConfusion hcon.1),
      if_pos ⟨rfl, hhi⟩]
    exact normalizeNI_single _
  · intro hsame
    rcases hsame with hpos | hneg
    · rw [if_neg (fun hcon => XQ.ne_of_lt' hpos hcon.1),
        if_neg (fun hcon => by
          rw [XQ.not_lt_of_lt hpos] at hcon; exact Bool.noConfusion hcon.1),
        if_neg (fun hcon => by
          rw [XQ.not_lt_of_lt hpos] at hcon; exact Bool.noConfusion hcon.1),
        if_neg (fun hcon => XQ.ne_of_lt' hpos hcon.1)]
      exact normalizeNI_single _
    · rw [if_neg (fun hcon => XQ.ne_of_lt hneg hcon.2),
        if_neg (fun hcon => by
          rw [XQ.not_lt_of_lt hneg] at hcon; exact Bool.noConfusion hcon.2),
        if_neg (fun hcon => XQ.ne_of_lt hneg hcon.2),
        if_neg (fun hcon => by
          rw [XQ.not_lt_of_lt hneg] at hcon; exact Bool.noConfusion hcon.2)]
      exact normalizeNI_single _

/-- Claim C4 amended witness: the amended case analysis applied to `[-1, 1]`,
giving the genuine two-piece union `(-inf, -1] UNION [1, inf)`. -/
theorem claim_C4_amended_witness :
    Numeric_Interval.op_invert ⟨XQ.fin (-1), XQ.fin 1⟩ =
      [⟨XQ.ninf, XQ.inv (XQ.fin (-1))⟩, ⟨XQ.inv (XQ.fin 1), XQ.pinf⟩] := by
  have h := (claim_C4_amended ⟨XQ.fin (-1), XQ.fin 1⟩ (by norm_num [Numeric_Interval.validB, XQ.le]; exact ⟨fun hcon => XQ.noConfusion hcon, fun hcon => XQ.noConfusion hcon⟩)).2.1
  exact h ⟨by norm_num [XQ.lt, XQ.le], by norm_num [XQ.lt, XQ.le],
    fun hcon => XQ.noConfusion hcon.1⟩

theorem validB_iff {i : Numeric_Interval} :
    i.validB = true ↔
      XQ.le i.lo i.hi = true ∧ i.lo ≠ XQ.pinf ∧ i.hi ≠ XQ.ninf := by
  simp [Numeric_Interval.validB, and_assoc]

theorem exactContains_iff {o : Numeric_Interval} {x : XQ} :
    o.exactContains x = true ↔
      XQ.le o.lo x = true ∧ XQ.le x o.hi = true := by
  simp [Numeric_Interval.exactContains]

theorem contains_iff {o : Numeric_Interval} {x : XQ} :
    o.contains x = true ↔
      (XQ.le o.lo x = true ∧ XQ.le x o.hi = true) ∨
        (XQ.isclose o.lo x = true ∨ XQ.isclose o.hi x = true) := by
  simp [Numeric_Interval.contains, Bool.or_eq_true, Bool.and_eq_true, or_assoc]

theorem contains_of_exact {o : Numeric_Interval} {x : XQ}
    (h : o.exactContains x = true) : o.contains x = true :=
  contains_iff.mpr (Or.inl (exactContains_iff.mp h))

/-- The tolerance-gap lemma: a point inside an `EPSILON_REL`-narrow rational
interval is `isclose` to one of its endpoints. -/
theorem gap_split (a b x : ℚ) (hab : |b - a| ≤ EPSILON_REL * max |a| |b|)
    (hax : a ≤ x) (hxb : x ≤ b) :
    |a - x| ≤ EPSILON_REL * max |a| |x| ∨
      |b - x| ≤ EPSILON_REL * max |b| |x| := by
  have hd : |b - a| = b - a := abs_of_nonneg (by linarith)
  have hax2 : |a - x| = x - a := by
    rw [abs_sub_comm]
    exact abs_of_nonneg (by linarith)
  have hbx : |b - x| = b - x := abs_of_nonneg (by linarith)
  rw [hd, show EPSILON_REL = 1 / 1000000 from rfl] at hab
  rw [hax2, hbx, show EPSILON_REL = 1 / 1000000 from rfl]
  rcases le_total (x - a) (b - x) with hhalf | hhalf
  · left
    rcases max_cases |a| |b| with ⟨hm, hm2⟩ | ⟨hm, hm2⟩ <;>
      rcases max_cases |a| |x| with ⟨hn, hn2⟩ | ⟨hn, hn2⟩ <;>
      rcases abs_cases a with ⟨ha1, ha2⟩ | ⟨ha1, ha2⟩ <;>
      rcases abs_cases b with ⟨hb1, hb2⟩ | ⟨hb1, hb2⟩ <;>
      rcases abs_cases x with ⟨hx1, hx2⟩ | ⟨hx1, hx2⟩ <;>
      rw [hm] at hab <;> rw [hn] <;> linarith
  · right
    rcases max_cases |a| |b| with ⟨hm, hm2⟩ | ⟨hm, hm2⟩ <;>
      rcases max_cases |b| |x| with ⟨hn, hn2⟩ | ⟨hn, hn2⟩ <;>
      rcases abs_cases a with ⟨ha1, ha2⟩ | ⟨ha1, ha2⟩ <;>
      rcases abs_cases b with ⟨hb1, hb2⟩ | ⟨hb1, hb2⟩ <;>
      rcases abs_cases x with ⟨hx1, hx2⟩ | ⟨hx1, hx2⟩ <;>
      rw [hm] at hab <;> rw [hn] <;> linarith

/-- Scalar version of the gap lemma. -/
theorem gap_split_xq {a b x : XQ} (hab : XQ.isclose a b = true)
    (hax : XQ.le a x = true) (hxb : XQ.le x b = true) :
    XQ.isclose a x = true ∨ XQ.isclose b x = true := by
  cases a with
  | ninf =>
    cases b with
    | ninf =>
      cases x with
      | ninf => exact Or.inl rfl
      | fin q => simp [XQ.le] at hxb
      | pinf => simp [XQ.le] at hxb
    | fin qb => simp [XQ.isclose] at hab
    | pinf => simp [XQ.isclose] at hab
  | pinf =>
    cases x with
    | ninf => simp [XQ.le] at hax
    | fin q => simp [XQ.le] at hax
    | pinf => exact Or.inl rfl
  | fin qa =>
    cases b with
    | ninf => simp [XQ.isclose] at hab
    | pinf => simp [XQ.isclose] at hab
    | fin qb =>
      cases x with
      | ninf => simp [XQ.le] at hax
      | pinf => simp [XQ.le] at hxb
      | fin qx =>
        rw [XQ.isclose_fin_iff] at hab
        rw [XQ.isclose_fin_iff, XQ.isclose_fin_iff]
        simp only [XQ.le, decide_eq_true_eq] at hax hxb
        rw [abs_sub_comm] at hab
        exact gap_split qa qb qx hab hax hxb

/-- Transfer of tolerance membership through one `maybe_merge`: any point that
the merged interval contains was already contained (under tolerance) in one of
the two merged intervals. -/
theorem merged_contains_split {self other : Numeric_Interval}
    (hlo : XQ.le self.lo other.lo = true)
    (hc : self.contains other.lo = true) (x : XQ)
    (hx : Numeric_Interval.contains ⟨self.lo, XQ.xmax self.hi other.hi⟩ x = true) :
    self.contains x = true ∨ other.contains x = true := by
  rw [contains_iff] at hx
  rcases hx with ⟨hx1, hx2⟩ | hcl | hch
  · -- self.lo <= x <= max(self.hi, other.hi)
    rcases XQ.xmax_choice self.hi other.hi with hm | hm
    · rw [hm] at hx2
      exact Or.inl (contains_iff.mpr (Or.inl ⟨hx1, hx2⟩))
    · rw [hm] at hx2
      cases hxs : XQ.le x self.hi with
      | true => exact Or.inl (contains_iff.mpr (Or.inl ⟨hx1, hxs⟩))
      | false =>
        cases hxo : XQ.le other.lo x with
        | true => exact Or.inr (contains_iff.mpr (Or.inl ⟨hxo, hx2⟩))
        | false =>
          -- self.hi < x < other.lo: the merged gap
          have hsx : XQ.lt self.hi x = true := by rw [XQ.lt_eq_true]; exact hxs
          have hxol : XQ.lt x other.lo = true := by rw [XQ.lt_eq_true]; exact hxo
          rw [contains_iff] at hc
          rcases hc with ⟨_, hc2⟩ | hc3 | hc4
          · -- other.lo <= self.hi contradicts self.hi < x < other.lo
            have h5 := XQ.lt_of_le_of_lt hc2 (XQ.lt_of_lt_of_le hsx (XQ.le_of_lt hxol))
            rw [XQ.lt_irrefl] at h5
            exact absurd h5 (by simp)
          · -- isclose self.lo other.lo
            rcases gap_split_xq hc3 hx1 (XQ.le_of_lt hxol) with h6 | h6
            · exact Or.inl (contains_iff.mpr (Or.inr (Or.inl h6)))
            · exact Or.inr (contains_iff.mpr (Or.inr (Or.inl h6)))
          · -- isclose self.hi other.lo
            rcases gap_split_xq hc4 (XQ.le_of_lt hsx) (XQ.le_of_lt hxol) with h6 | h6
            · exact Or.inl (contains_iff.mpr (Or.inr (Or.inr h6)))
            · exact Or.inr (contains_iff.mpr (Or.inr (Or.inl h6)))
  · exact Or.inl (contains_iff.mpr (Or.inr (Or.inl hcl)))
  · rcases XQ.xmax_choice self.hi other.hi with hm | hm
    · rw [hm] at hch
      exact Or.inl (contains_iff.mpr (Or.inr (Or.inr hch)))
    · rw [hm] at hch
      exact Or.inr (contains_iff.mpr (Or.inr (Or.inr hch)))

theorem chainB_tail {a : Numeric_Interval} {l : List Numeric_Interval}
    (h : ChainB (a :: l)) : ChainB l := by
  cases l with
  | nil => trivial
  | cons b l2 => exact h.2

theorem chainB_head_lt : ∀ (o : Numeric_Interval) (rest : List Numeric_Interval),
    ChainB (o :: rest) → (∀ j ∈ rest, j.validB = true) →
    ∀ o2 ∈ rest, XQ.lt o.hi o2.lo = true := by
  intro o rest
  induction rest generalizing o with
  | nil =>
    intro _ _ o2 h2
    exact absurd h2 (List.not_mem_nil o2)
  | cons b l2 ihr =>
    intro hch hv o2 h2
    have hob : XQ.lt o.hi b.lo = true := hch.1
    rcases List.mem_cons.mp h2 with rfl | h3
    · exact hob
    · have hbv := hv b (List.mem_cons_self b l2)
      have hb2 := ihr b hch.2 (fun j hj => hv j (List.mem_cons_of_mem b hj)) o2 h3
      exact XQ.lt_of_lt_of_le hob
        (XQ.le_trans (validB_iff.mp hbv).1 (XQ.le_of_lt hb2))

theorem sorted_of_chainB : ∀ l : List Numeric_Interval, ChainB l →
    (∀ j ∈ l, j.validB = true) → List.Sorted rLo l := by
  intro l
  induction l with
  | nil =>
    intro _ _
    exact List.sorted_nil
  | cons a rest ihl =>
    intro hch hv
    rw [List.sorted_cons]
    refine ⟨?_, ihl (chainB_tail hch) (fun j hj => hv j (List.mem_cons_of_mem a hj))⟩
    intro b hb
    have hlt := chainB_head_lt a rest hch
      (fun j hj => hv j (List.mem_cons_of_mem a hj)) b hb
    exact XQ.le_trans (validB_iff.mp (hv a (List.mem_cons_self a rest))).1
      (XQ.le_of_lt hlt)

/-- Correctness of the `gen_merge` fold on a sorted input: the output is
non-empty, keeps the first lower bound, satisfies the strict-gap chain
invariant, consists of valid intervals, covers every point exactly contained
in an input, and every point it tolerance-contains was tolerance-contained in
some input. -/
theorem gen_merge_spec : ∀ (l : List Numeric_Interval) (last : Numeric_Interval),
    last.validB = true → (∀ i ∈ l, i.validB = true) →
    List.Sorted rLo (last :: l) →
    ∃ o1 or1, gen_merge last l = o1 :: or1 ∧ o1.lo = last.lo ∧
      ChainB (o1 :: or1) ∧ (∀ o ∈ o1 :: or1, o.validB = true) ∧
      (∀ x, (last.exactContains x = true ∨ ∃ i ∈ l, i.exactContains x = true) →
        ∃ o ∈ o1 :: or1, o.exactContains x = true) ∧
      (∀ x o, o ∈ o1 :: or1 → o.contains x = true →
        last.contains x = true ∨ ∃ i ∈ l, i.contains x = true) := by
  intro l
  induction l with
  | nil =>
    intro last hval _ _
    refine ⟨last, [], rfl, rfl, trivial, ?_, ?_, ?_⟩
    · intro o ho
      rw [List.mem_singleton.mp ho]
      exact hval
    · intro x hx
      rcases hx with hx | ⟨i, hi, _⟩
      · exact ⟨last, List.mem_singleton_self _, hx⟩
      · exact absurd hi (List.not_mem_nil i)
    · intro x o ho hcont
      rw [List.mem_singleton.mp ho] at hcont
      exact Or.inl hcont
  | cons i rest ih =>
    intro last hval hvl hsort
    have hsc := List.sorted_cons.mp hsort
    have hli : XQ.le last.lo i.lo = true := hsc.1 i (List.mem_cons_self i rest)
    have hsort2 : List.Sorted rLo (i :: rest) := hsc.2
    have hvi : i.validB = true := hvl i (List.mem_cons_self i rest)
    have hvrest : ∀ j ∈ rest, j.validB = true :=
      fun j hj => hvl j (List.mem_cons_of_mem i hj)
    rw [show gen_merge last (i :: rest) = (last.maybe_merge_interval i).dropLast
        ++ gen_merge ((last.maybe_merge_interval i).getLastD i) rest from rfl]
    rw [maybe_merge_left hli]
    by_cases hcond : last.contains i.lo = true
    · rw [if_pos hcond]
      have hdl1 : (([⟨last.lo, XQ.xmax last.hi i.hi⟩] :
          List Numeric_Interval).dropLast) = [] := rfl
      have hgl1 : (([⟨last.lo, XQ.xmax last.hi i.hi⟩] :
          List Numeric_Interval).getLastD i) = ⟨last.lo, XQ.xmax last.hi i.hi⟩ := rfl
      rw [hdl1, hgl1, List.nil_append]
      have hmv : Numeric_Interval.validB ⟨last.lo, XQ.xmax last.hi i.hi⟩ = true := by
        rw [validB_iff]
        refine ⟨XQ.le_trans (validB_iff.mp hval).1 (XQ.le_xmax_left _ _),
          (validB_iff.mp hval).2.1, ?_⟩
        rcases XQ.xmax_choice last.hi i.hi with hm | hm <;> rw [hm]
        · exact (validB_iff.mp hval).2.2
        · exact (validB_iff.mp hvi).2.2
      have hsm : List.Sorted rLo (⟨last.lo, XQ.xmax last.hi i.hi⟩ :: rest) := by
        rw [List.sorted_cons]
        refine ⟨?_, (List.sorted_cons.mp hsort2).2⟩
        intro b hb
        exact hsc.1 b (List.mem_cons_of_mem i hb)
      obtain ⟨o1, or1, heq, holo, hchain, hvout, hexact, htol⟩ :=
        ih ⟨last.lo, XQ.xmax last.hi i.hi⟩ hmv hvrest hsm
      refine ⟨o1, or1, heq, holo, hchain, hvout, ?_, ?_⟩
      · intro x hx
        apply hexact
        rcases hx with hx | ⟨j, hj, hjx⟩
        · left
          rw [exactContains_iff]
          exact ⟨(exactContains_iff.mp hx).1,
            XQ.le_trans (exactContains_iff.mp hx).2 (XQ.le_xmax_left _ _)⟩
        · rcases List.mem_cons.mp hj with rfl | hj2
          · left
            rw [exactContains_iff]
            exact ⟨XQ.le_trans hli (exactContains_iff.mp hjx).1,
              XQ.le_trans (exactContains_iff.mp hjx).2 (XQ.le_xmax_right _ _)⟩
          · exact Or.inr ⟨j, hj2, hjx⟩
      · intro x o ho hcont
        rcases htol x o ho hcont with hmx | ⟨j, hj, hjx⟩
        · rcases merged_contains_split hli hcond x hmx with h1 | h1
          · exact Or.inl h1
          · exact Or.inr ⟨i, List.mem_cons_self i rest, h1⟩
        · exact Or.inr ⟨j, List.mem_cons_of_mem i hj, hjx⟩
    · rw [if_neg hcond]
      have hdl : ([last, i].dropLast : List Numeric_Interval) = [last] := rfl
      have hgl : ([last, i].getLastD i) = i := rfl
      rw [hdl, hgl]
      obtain ⟨o1, or1, heq, holo, hchain, hvout, hexact, htol⟩ :=
        ih i hvi hvrest hsort2
      rw [heq, List.singleton_append]
      have hcf : last.contains i.lo = false := by
        cases hb : last.contains i.lo
        · rfl
        · exact absurd hb hcond
      have hgap : XQ.lt last.hi i.lo = true := by
        rw [XQ.lt_eq_true]
        rw [Numeric_Interval.contains] at hcf
        rcases Bool.or_eq_false_iff.mp hcf with ⟨h1, _⟩
        rcases Bool.or_eq_false_iff.mp h1 with ⟨h2, _⟩
        rcases Bool.and_eq_false_iff.mp h2 with h3 | h3
        · rw [hli] at h3
          exact absurd h3 (by simp)
        · exact h3
      refine ⟨last, o1 :: or1, rfl, rfl, ⟨by rw [holo]; exact hgap, hchain⟩,
        ?_, ?_, ?_⟩
      · intro o ho
        rcases List.mem_cons.mp ho with rfl | ho2
        · exact hval
        · exact hvout o ho2
      · intro x hx
        rcases hx with hx | ⟨j, hj, hjx⟩
        · exact ⟨last, List.mem_cons_self _ _, hx⟩
        · rcases List.mem_cons.mp hj with rfl | hj2
          · obtain ⟨o, ho, hox⟩ := hexact x (Or.inl hjx)
            exact ⟨o, List.mem_cons_of_mem last ho, hox⟩
          · obtain ⟨o, ho, hox⟩ := hexact x (Or.inr ⟨j, hj2, hjx⟩)
            exact ⟨o, List.mem_cons_of_mem last ho, hox⟩
      · intro x o ho hcont
        rcases List.mem_cons.mp ho with rfl | ho2
        · exact Or.inl hcont
        · rcases htol x o ho2 hcont with h1 | ⟨j, hj, hjx⟩
          · exact Or.inr ⟨i, List.mem_cons_self i rest, h1⟩
          · exact Or.inr ⟨j, List.mem_cons_of_mem i hj, hjx⟩

theorem bisect_cons (o : Numeric_Interval) (rest : List Numeric_Interval)
    (x : XQ) :
    bisect_by_lo (o :: rest) x =
      if XQ.le o.lo x = true then bisect_by_lo rest x + 1 else 0 := by
  unfold bisect_by_lo
  cases h : XQ.le o.lo x <;> simp [List.takeWhile_cons, h]

theorem nid_contains_cons (o : Numeric_Interval) (rest : List Numeric_Interval)
    (x : XQ) :
    NID_contains (o :: rest) x =
      if XQ.le o.lo x = true then
        (if bisect_by_lo rest x = 0 then o.contains x else NID_contains rest x)
      else false := by
  simp only [NID_contains, bisect_cons]
  by_cases h : XQ.le o.lo x = true
  · rw [if_pos h, if_pos h]
    by_cases hb : bisect_by_lo rest x = 0
    · rw [hb, if_pos rfl]
      simp [List.getD_cons_zero]
    · rw [if_neg hb]
      obtain ⟨k, hk⟩ := Nat.exists_eq_succ_of_ne_zero hb
      rw [hk]
      rw [if_neg (by omega : ¬(k + 1 + 1 = 0)), if_neg (by omega : ¬(k + 1 = 0))]
      have h2 : k + 1 + 1 - 1 = k + 1 := by omega
      have h3 : k + 1 - 1 = k := by omega
      rw [h2, h3, List.getD_cons_succ]
  · rw [if_neg h, if_neg h]
    simp

theorem nid_contains_of_exact : ∀ (l : List Numeric_Interval), ChainB l →
    (∀ j ∈ l, j.validB = true) → ∀ (x : XQ) (o : Numeric_Interval), o ∈ l →
    o.exactContains x = true → NID_contains l x = true := by
  intro l
  induction l with
  | nil =>
    intro _ _ x o ho
    exact absurd ho (List.not_mem_nil o)
  | cons a rest ihl =>
    intro hch hv x o ho hox
    rw [nid_contains_cons]
    rcases List.mem_cons.mp ho with rfl | ho2
    · rw [if_pos (exactContains_iff.mp hox).1]
      have hb0 : bisect_by_lo rest x = 0 := by
        cases rest with
        | nil => rfl
        | cons b l2 =>
          rw [bisect_cons]
          have hlt : XQ.lt o.hi b.lo = true := hch.1
          have hbl : XQ.le b.lo x = false := by
            cases hle : XQ.le b.lo x
            · rfl
            · have h2 := XQ.lt_of_le_of_lt
                (XQ.le_trans hle (exactContains_iff.mp hox).2) hlt
              rw [XQ.lt_irrefl] at h2
              exact absurd h2 (by simp)
          rw [if_neg (by simp [hbl])]
      rw [hb0, if_pos rfl]
      exact contains_of_exact hox
    · have hvr : ∀ j ∈ rest, j.validB = true :=
        fun j hj => hv j (List.mem_cons_of_mem a hj)
      have hlt := chainB_head_lt a rest hch hvr o ho2
      have hax : XQ.le a.lo x = true :=
        XQ.le_trans (validB_iff.mp (hv a (List.mem_cons_self a rest))).1
          (XQ.le_trans (XQ.le_of_lt hlt) (exactContains_iff.mp hox).1)
      rw [if_pos hax]
      have hbpos : bisect_by_lo rest x ≠ 0 := by
        cases rest with
        | nil => exact absurd ho2 (List.not_mem_nil o)
        | cons b l2 =>
          rw [bisect_cons]
          have hbx : XQ.le b.lo x = true := by
            rcases List.mem_cons.mp ho2 with rfl | ho3
            · exact (exactContains_iff.mp hox).1
            · have hltb := chainB_head_lt b l2 (chainB_tail hch)
                (fun j hj => hvr j (List.mem_cons_of_mem b hj)) o ho3
              exact XQ.le_trans (validB_iff.mp (hvr b (List.mem_cons_self b l2))).1
                (XQ.le_trans (XQ.le_of_lt hltb) (exactContains_iff.mp hox).1)
          rw [if_pos hbx]
          omega
      rw [if_neg hbpos]
      exact ihl (chainB_tail hch) hvr x o ho2 hox

theorem nid_contains_imp : ∀ (l : List Numeric_Interval) (x : XQ),
    NID_contains l x = true → ∃ o ∈ l, o.contains x = true := by
  intro l
  induction l with
  | nil =>
    intro x hx
    simp [NID_contains, bisect_by_lo, List.takeWhile] at hx
  | cons a rest ihl =>
    intro x hx
    rw [nid_contains_cons] at hx
    by_cases h1 : XQ.le a.lo x = true
    · rw [if_pos h1] at hx
      by_cases hb : bisect_by_lo rest x = 0
      · rw [if_pos hb] at hx
        exact ⟨a, List.mem_cons_self a rest, hx⟩
      · rw [if_neg hb] at hx
        obtain ⟨o, ho, hox⟩ := ihl x hx
        exact ⟨o, List.mem_cons_of_mem a ho, hox⟩
    · rw [if_neg h1] at hx
      exact absurd hx (by simp)

/-- Claim C2 (amended): for every bag of intervals (with nested unions and
empties flattened away), the constructed union's interval list is sorted
ascending by lower bound and satisfies the strict-gap invariant
(`hi < next lo`); every scalar exactly contained in some bag interval is a
member of the union; and every member of the union is tolerance-contained in
some bag interval.  (The original two-way equivalence with the code's
tolerance membership on both sides fails: see the counterexample.) -/
theorem claim_C2_amended (args : List NSetArg)
    (h : ∀ i ∈ flattenArgs args, i.validB = true) :
    List.Sorted rLo (NID_init args) ∧ ChainB (NID_init args) ∧
    (∀ x, (∃ i ∈ flattenArgs args, i.exactContains x = true) →
      NID_contains (NID_init args) x = true) ∧
    (∀ x, NID_contains (NID_init args) x = true →
      ∃ i ∈ flattenArgs args, i.contains x = true) := by
  have hperm := List.perm_insertionSort rLo (flattenArgs args)
  have hsorted := List.sorted_insertionSort rLo (flattenArgs args)
  rw [NID_init, normalizeNI]
  cases hs : List.insertionSort rLo (flattenArgs args) with
  | nil =>
    rw [hs] at hperm
    have hfa : flattenArgs args = [] := List.Perm.eq_nil hperm.symm
    rw [show gen_merge_all [] = ([] : List Numeric_Interval) from rfl]
    refine ⟨List.sorted_nil, trivial, ?_, ?_⟩
    · rintro x ⟨i, hi, -⟩
      rw [hfa] at hi
      exact absurd hi (List.not_mem_nil i)
    · intro x hx
      simp [NID_contains, bisect_by_lo, List.takeWhile] at hx
  | cons x0 xs =>
    rw [hs] at hperm hsorted
    rw [show gen_merge_all (x0 :: xs) = gen_merge x0 xs from rfl]
    have hvall : ∀ j ∈ x0 :: xs, j.validB = true := fun j hj => h j (hperm.subset hj)
    obtain ⟨o1, or1, heq, holo, hchain, hvout, hexact, htol⟩ :=
      gen_merge_spec xs x0 (hvall x0 (List.mem_cons_self x0 xs))
        (fun j hj => hvall j (List.mem_cons_of_mem x0 hj)) hsorted
    rw [heq]
    refine ⟨sorted_of_chainB _ hchain hvout, hchain, ?_, ?_⟩
    · rintro x ⟨i, hi, hix⟩
      have hi2 : i ∈ x0 :: xs := hperm.mem_iff.mpr hi
      have hex : x0.exactContains x = true ∨ ∃ j ∈ xs, j.exactContains x = true := by
        rcases List.mem_cons.mp hi2 with rfl | hi3
        · exact Or.inl hix
        · exact Or.inr ⟨i, hi3, hix⟩
      obtain ⟨o, ho, hox⟩ := hexact x hex
      exact nid_contains_of_exact (o1 :: or1) hchain hvout x o ho hox
    · intro x hx
      obtain ⟨o, ho, hox⟩ := nid_contains_imp (o1 :: or1) x hx
      rcases htol x o ho hox with h1 | ⟨j, hj, hjx⟩
      · exact ⟨x0, hperm.subset (List.mem_cons_self x0 xs), h1⟩
      · exact ⟨j, hperm.subset (List.mem_cons_of_mem x0 hj), hjx⟩

/-- Claim C2 amended witness: the amended statement applied to the singleton
bag containing `[0, 1]`. -/
theorem claim_C2_amended_witness :
    ChainB (NID_init [NSetArg.ival ⟨XQ.fin 0, XQ.fin 1⟩]) ∧
    NID_contains (NID_init [NSetArg.ival ⟨XQ.fin 0, XQ.fin 1⟩]) (XQ.fin 0) = true := by
  have h := claim_C2_amended [NSetArg.ival ⟨XQ.fin 0, XQ.fin 1⟩] (by
    intro i hi
    rw [List.mem_singleton.mp hi]
    rw [validB_iff]
    refine ⟨by norm_num [XQ.le], fun hcon => XQ.noConfusion hcon,
      fun hcon => XQ.noConfusion hcon⟩)
  refine ⟨h.2.1, h.2.2.1 (XQ.fin 0) ⟨⟨XQ.fin 0, XQ.fin 1⟩, ?_, ?_⟩⟩
  · rw [show flattenArgs [NSetArg.ival ⟨XQ.fin 0, XQ.fin 1⟩] =
      [(⟨XQ.fin 0, XQ.fin 1⟩ : Numeric_Interval)] from rfl]
    exact List.mem_singleton_self _
  · norm_num [Numeric_Interval.exactContains, XQ.le]

theorem xle_tt {p q : ℚ} (h : p ≤ q) : XQ.le (XQ.fin p) (XQ.fin q) = true := by
  simp only [XQ.le, decide_eq_true_eq]
  exact h

theorem xle_ff {p q : ℚ} (h : q < p) : XQ.le (XQ.fin p) (XQ.fin q) = false := by
  simp only [XQ.le, decide_eq_false_iff_not, not_le]
  exact h

theorem xlt_tt {p q : ℚ} (h : p < q) : XQ.lt (XQ.fin p) (XQ.fin q) = true := by
  rw [XQ.lt_eq_true]
  exact xle_ff h

theorem xlt_ff {p q : ℚ} (h : q ≤ p) : XQ.lt (XQ.fin p) (XQ.fin q) = false := by
  rw [XQ.lt, xle_tt h]
  rfl

theorem bool_ne_true {b : Bool} (h : b = false) : ¬(b = true) := by
  rw [h]
  exact Bool.noConfusion

theorem xmax_fin_right {p q : ℚ} (h : p ≤ q) :
    XQ.xmax (XQ.fin p) (XQ.fin q) = XQ.fin q := by
  rw [XQ.xmax, xle_tt h]
  rfl

theorem xmax_fin_left {p q : ℚ} (h : q < p) :
    XQ.xmax (XQ.fin p) (XQ.fin q) = XQ.fin p := by
  rw [XQ.xmax, xle_ff h]
  rfl

theorem xmin_fin_left {p q : ℚ} (h : p ≤ q) :
    XQ.xmin (XQ.fin p) (XQ.fin q) = XQ.fin p := by
  rw [XQ.xmin, xle_tt h]
  rfl

theorem xmin_fin_right {p q : ℚ} (h : q < p) :
    XQ.xmin (XQ.fin p) (XQ.fin q) = XQ.fin q := by
  rw [XQ.xmin, xle_ff h]
  rfl

theorem gen_merge_single (last : Numeric_Interval) : gen_merge last [] = [last] := rfl

theorem gen_merge_cons_merge {last i : Numeric_Interval}
    {rest : List Numeric_Interval} (hli : XQ.le last.lo i.lo = true)
    (hc : last.contains i.lo = true) :
    gen_merge last (i :: rest) =
      gen_merge ⟨last.lo, XQ.xmax last.hi i.hi⟩ rest := by
  rw [show gen_merge last (i :: rest) = (last.maybe_merge_interval i).dropLast
      ++ gen_merge ((last.maybe_merge_interval i).getLastD i) rest from rfl]
  rw [maybe_merge_left hli, if_pos hc]
  rfl

theorem pyEq_refl (i : Numeric_Interval) : i.pyEq i = true := by
  simp [Numeric_Interval.pyEq, XQ.isclose_refl]

theorem NID_pyEq_single {i j : Numeric_Interval} (h : i.pyEq j = true) :
    NID_pyEq [i] [j] = true := by
  simp [NID_pyEq, h]

theorem contains_tt_of_le {i : Numeric_Interval} {x : XQ}
    (h1 : XQ.le i.lo x = true) (h2 : XQ.le x i.hi = true) :
    i.contains x = true :=
  contains_iff.mpr (Or.inl ⟨h1, h2⟩)

theorem xmax_fin (p q : ℚ) : XQ.xmax (XQ.fin p) (XQ.fin q) = XQ.fin (max p q) := by
  by_cases h : p ≤ q
  · rw [XQ.xmax, xle_tt h, if_pos rfl, max_eq_right h]
  · rw [XQ.xmax, xle_ff (not_le.mp h), if_neg (fun hcon => Bool.noConfusion hcon),
      max_eq_left (le_of_not_le h)]

theorem xmin_fin (p q : ℚ) : XQ.xmin (XQ.fin p) (XQ.fin q) = XQ.fin (min p q) := by
  by_cases h : p ≤ q
  · rw [XQ.xmin, xle_tt h, if_pos rfl, min_eq_left h]
  · rw [XQ.xmin, xle_ff (not_le.mp h), if_neg (fun hcon => Bool.noConfusion hcon),
      min_eq_right (le_of_not_le h)]

theorem rLo_ff {i j : Numeric_Interval} (h : XQ.le i.lo j.lo = false) :
    ¬ rLo i j := by
  intro hcon
  unfold rLo at hcon
  rw [h] at hcon
  exact Bool.noConfusion hcon

theorem normalizeNI_pair_swap {i j : Numeric_Interval}
    (hij : XQ.le i.lo j.lo = false) :
    normalizeNI [i, j] = normalizeNI [j, i] := by
  unfold normalizeNI
  have h1 : List.insertionSort rLo [i, j] = [j, i] := by
    show List.orderedInsert rLo i (List.insertionSort rLo [j]) = [j, i]
    rw [show List.insertionSort rLo [j] = [j] by
      simp [List.insertionSort, List.orderedInsert]]
    show (if rLo i j then i :: [j] else j :: List.orderedInsert rLo i []) = [j, i]
    rw [if_neg (rLo_ff hij)]
    rfl
  have h2 : List.insertionSort rLo [j, i] = [j, i] := by
    show List.orderedInsert rLo j (List.insertionSort rLo [i]) = [j, i]
    rw [show List.insertionSort rLo [i] = [i] by
      simp [List.insertionSort, List.orderedInsert]]
    show (if rLo j i then j :: [i] else i :: List.orderedInsert rLo j []) = [j, i]
    rw [if_pos (show rLo j i from XQ.le_of_not_le hij)]
  rw [h1, h2]

/-- A \ B UNION A INTERSECT B equals A: case A entirely left of B. -/
theorem law2_caseN1 (a1 a2 b1 b2 : ℚ) (ha : a1 ≤ a2) (hb : b1 ≤ b2)
    (h : a2 < b1) :
    NID_pyEq
      (NID_op_union_intervals
        (Numeric_Interval.op_difference_interval ⟨XQ.fin a1, XQ.fin a2⟩
          ⟨XQ.fin b1, XQ.fin b2⟩)
        (Numeric_Interval.op_intersect_interval ⟨XQ.fin a1, XQ.fin a2⟩
          ⟨XQ.fin b1, XQ.fin b2⟩))
      [⟨XQ.fin a1, XQ.fin a2⟩] = true := by
  have hD : Numeric_Interval.op_difference_interval ⟨XQ.fin a1, XQ.fin a2⟩
      ⟨XQ.fin b1, XQ.fin b2⟩ = [⟨XQ.fin a1, XQ.fin a2⟩] := by
    simp only [Numeric_Interval.op_difference_interval]
    rw [if_pos (show (XQ.lt (XQ.fin a2) (XQ.fin b1)
        || XQ.lt (XQ.fin b2) (XQ.fin a1)) = true by rw [xlt_tt h]; rfl)]
    exact normalizeNI_single _
  by_cases hcl : XQ.isclose (XQ.fin b1) (XQ.fin a2) = true
  · have hX : Numeric_Interval.op_intersect_interval ⟨XQ.fin a1, XQ.fin a2⟩
        ⟨XQ.fin b1, XQ.fin b2⟩ = [⟨XQ.fin b1, XQ.fin b1⟩] := by
      simp only [Numeric_Interval.op_intersect_interval,
        xmax_fin, xmin_fin, max_eq_right (le_of_lt (lt_of_le_of_lt ha h)),
        min_eq_left (le_of_lt (lt_of_lt_of_le h hb))]
      rw [if_neg (bool_ne_true (xle_ff h)), if_pos hcl]
      exact normalizeNI_single _
    rw [hD, hX, NID_op_union_intervals,
      show ([⟨XQ.fin a1, XQ.fin a2⟩] : NID) ++ [⟨XQ.fin b1, XQ.fin b1⟩]
        = [⟨XQ.fin a1, XQ.fin a2⟩, ⟨XQ.fin b1, XQ.fin b1⟩] from rfl,
      normalizeNI_pair (xle_tt (le_of_lt (lt_of_le_of_lt ha h)))]
    rw [if_pos (contains_iff.mpr (Or.inr (Or.inr (XQ.isclose_symm hcl))))]
    simp [NID_pyEq, Numeric_Interval.pyEq, xmax_fin,
      max_eq_right (le_of_lt h), XQ.isclose_refl, hcl]
  · have hX : Numeric_Interval.op_intersect_interval ⟨XQ.fin a1, XQ.fin a2⟩
        ⟨XQ.fin b1, XQ.fin b2⟩ = [] := by
      simp only [Numeric_Interval.op_intersect_interval,
        xmax_fin, xmin_fin, max_eq_right (le_of_lt (lt_of_le_of_lt ha h)),
        min_eq_left (le_of_lt (lt_of_lt_of_le h hb))]
      rw [if_neg (bool_ne_true (xle_ff h)), if_neg hcl]
    rw [hD, hX, NID_op_union_intervals, List.append_nil, normalizeNI_single]
    exact NID_pyEq_single (pyEq_refl _)

/-- A \ B UNION A INTERSECT B equals A: case A entirely right of B. -/
theorem law2_caseN2 (a1 a2 b1 b2 : ℚ) (ha : a1 ≤ a2) (hb : b1 ≤ b2)
    (h : b2 < a1) :
    NID_pyEq
      (NID_op_union_intervals
        (Numeric_Interval.op_difference_interval ⟨XQ.fin a1, XQ.fin a2⟩
          ⟨XQ.fin b1, XQ.fin b2⟩)
        (Numeric_Interval.op_intersect_interval ⟨XQ.fin a1, XQ.fin a2⟩
          ⟨XQ.fin b1, XQ.fin b2⟩))
      [⟨XQ.fin a1, XQ.fin a2⟩] = true := by
  have hD : Numeric_Interval.op_difference_interval ⟨XQ.fin a1, XQ.fin a2⟩
      ⟨XQ.fin b1, XQ.fin b2⟩ = [⟨XQ.fin a1, XQ.fin a2⟩] := by
    simp only [Numeric_Interval.op_difference_interval]
    rw [if_pos (show (XQ.lt (XQ.fin a2) (XQ.fin b1)
        || XQ.lt (XQ.fin b2) (XQ.fin a1)) = true by
      rw [xlt_tt h, Bool.or_true])]
    exact normalizeNI_single _
  by_cases hcl : XQ.isclose (XQ.fin a1) (XQ.fin b2) = true
  · have hX : Numeric_Interval.op_intersect_interval ⟨XQ.fin a1, XQ.fin a2⟩
        ⟨XQ.fin b1, XQ.fin b2⟩ = [⟨XQ.fin a1, XQ.fin a1⟩] := by
      simp only [Numeric_Interval.op_intersect_interval,
        xmax_fin, xmin_fin, max_eq_left (le_of_lt (lt_of_le_of_lt hb h)),
        min_eq_right (le_of_lt (lt_of_lt_of_le h ha))]
      rw [if_neg (bool_ne_true (xle_ff h)), if_pos hcl]
      exact normalizeNI_single _
    rw [hD, hX, NID_op_union_intervals,
      show ([⟨XQ.fin a1, XQ.fin a2⟩] : NID) ++ [⟨XQ.fin a1, XQ.fin a1⟩]
        = [⟨XQ.fin a1, XQ.fin a2⟩, ⟨XQ.fin a1, XQ.fin a1⟩] from rfl,
      normalizeNI_pair (xle_tt (le_refl a1))]
    rw [if_pos (contains_tt_of_le (xle_tt (le_refl a1)) (xle_tt ha))]
    simp [NID_pyEq, Numeric_Interval.pyEq, xmax_fin, max_eq_left ha,
      XQ.isclose_refl]
  · have hX : Numeric_Interval.op_intersect_interval ⟨XQ.fin a1, XQ.fin a2⟩
        ⟨XQ.fin b1, XQ.fin b2⟩ = [] := by
      simp only [Numeric_Interval.op_intersect_interval,
        xmax_fin, xmin_fin, max_eq_left (le_of_lt (lt_of_le_of_lt hb h)),
        min_eq_right (le_of_lt (lt_of_lt_of_le h ha))]
      rw [if_neg (bool_ne_true (xle_ff h)), if_neg hcl]
    rw [hD, hX, NID_op_union_intervals, List.append_nil, normalizeNI_single]
    exact NID_pyEq_single (pyEq_refl _)

/-- A \ B UNION A INTERSECT B equals A: case B fully covers A. -/
theorem law2_caseF (a1 a2 b1 b2 : ℚ) (ha : a1 ≤ a2)
    (hba : b1 ≤ a1) (hab : a2 ≤ b2) :
    NID_pyEq
      (NID_op_union_intervals
        (Numeric_Interval.op_difference_interval ⟨XQ.fin a1, XQ.fin a2⟩
          ⟨XQ.fin b1, XQ.fin b2⟩)
        (Numeric_Interval.op_intersect_interval ⟨XQ.fin a1, XQ.fin a2⟩
          ⟨XQ.fin b1, XQ.fin b2⟩))
      [⟨XQ.fin a1, XQ.fin a2⟩] = true := by
  have hD : Numeric_Interval.op_difference_interval ⟨XQ.fin a1, XQ.fin a2⟩
      ⟨XQ.fin b1, XQ.fin b2⟩ = [] := by
    simp only [Numeric_Interval.op_difference_interval]
    rw [if_neg (bool_ne_true (show (XQ.lt (XQ.fin a2) (XQ.fin b1)
        || XQ.lt (XQ.fin b2) (XQ.fin a1)) = false by
      rw [xlt_ff (le_trans hba ha), xlt_ff (le_trans ha hab)]; rfl))]
    rw [if_pos (show (XQ.le (XQ.fin b1) (XQ.fin a1)
        && XQ.le (XQ.fin a2) (XQ.fin b2)) = true by
      rw [xle_tt hba, xle_tt hab]; rfl)]
  have hX : Numeric_Interval.op_intersect_interval ⟨XQ.fin a1, XQ.fin a2⟩
      ⟨XQ.fin b1, XQ.fin b2⟩ = [⟨XQ.fin a1, XQ.fin a2⟩] := by
    simp only [Numeric_Interval.op_intersect_interval,
      xmax_fin, xmin_fin, max_eq_left hba, min_eq_left hab]
    rw [if_pos (xle_tt ha)]
    exact normalizeNI_single _
  rw [hD, hX, NID_op_union_intervals,
    show (([] : NID) ++ [⟨XQ.fin a1, XQ.fin a2⟩]) = [⟨XQ.fin a1, XQ.fin a2⟩]
      from rfl,
    normalizeNI_single]
  exact NID_pyEq_single (pyEq_refl _)

/-- A \ B UNION A INTERSECT B equals A: case B overlaps A on the right. -/
theorem law2_caseR (a1 a2 b1 b2 : ℚ)
    (h1 : a1 < b1) (h2 : b1 ≤ a2) (h3 : a2 ≤ b2) :
    NID_pyEq
      (NID_op_union_intervals
        (Numeric_Interval.op_difference_interval ⟨XQ.fin a1, XQ.fin a2⟩
          ⟨XQ.fin b1, XQ.fin b2⟩)
        (Numeric_Interval.op_intersect_interval ⟨XQ.fin a1, XQ.fin a2⟩
          ⟨XQ.fin b1, XQ.fin b2⟩))
      [⟨XQ.fin a1, XQ.fin a2⟩] = true := by
  have hD : Numeric_Interval.op_difference_interval ⟨XQ.fin a1, XQ.fin a2⟩
      ⟨XQ.fin b1, XQ.fin b2⟩ = [⟨XQ.fin a1, XQ.fin b1⟩] := by
    simp only [Numeric_Interval.op_difference_interval]
    rw [if_neg (bool_ne_true (show (XQ.lt (XQ.fin a2) (XQ.fin b1)
        || XQ.lt (XQ.fin b2) (XQ.fin a1)) = false by
      rw [xlt_ff h2, xlt_ff (le_of_lt (lt_of_lt_of_le h1 (le_trans h2 h3)))]
      rfl))]
    rw [if_neg (bool_ne_true (show (XQ.le (XQ.fin b1) (XQ.fin a1)
        && XQ.le (XQ.fin a2) (XQ.fin b2)) = false by
      rw [xle_ff h1]; rfl))]
    rw [if_neg (bool_ne_true (show (XQ.lt (XQ.fin a1) (XQ.fin b1)
        && XQ.lt (XQ.fin b2) (XQ.fin a2)) = false by
      rw [xlt_ff h3, Bool.and_false]))]
    rw [if_pos (xlt_tt h1)]
    exact normalizeNI_single _
  have hX : Numeric_Interval.op_intersect_interval ⟨XQ.fin a1, XQ.fin a2⟩
      ⟨XQ.fin b1, XQ.fin b2⟩ = [⟨XQ.fin b1, XQ.fin a2⟩] := by
    simp only [Numeric_Interval.op_intersect_interval,
      xmax_fin, xmin_fin, max_eq_right (le_of_lt h1), min_eq_left h3]
    rw [if_pos (xle_tt h2)]
    exact normalizeNI_single _
  rw [hD, hX, NID_op_union_intervals,
    show ([⟨XQ.fin a1, XQ.fin b1⟩] : NID) ++ [⟨XQ.fin b1, XQ.fin a2⟩]
      = [⟨XQ.fin a1, XQ.fin b1⟩, ⟨XQ.fin b1, XQ.fin a2⟩] from rfl,
    normalizeNI_pair (xle_tt (le_of_lt h1))]
  rw [if_pos (contains_tt_of_le (xle_tt (le_of_lt h1)) (xle_tt (le_refl b1)))]
  simp [NID_pyEq, Numeric_Interval.pyEq, xmax_fin, max_eq_right h2,
    XQ.isclose_refl]

/-- A \ B UNION A INTERSECT B equals A: case B overlaps A on the left. -/
theorem law2_caseL (a1 a2 b1 b2 : ℚ)
    (h1 : b1 ≤ a1) (h2 : a1 ≤ b2) (h3 : b2 < a2) :
    NID_pyEq
      (NID_op_union_intervals
        (Numeric_Interval.op_difference_interval ⟨XQ.fin a1, XQ.fin a2⟩
          ⟨XQ.fin b1, XQ.fin b2⟩)
        (Numeric_Interval.op_intersect_interval ⟨XQ.fin a1, XQ.fin a2⟩
          ⟨XQ.fin b1, XQ.fin b2⟩))
      [⟨XQ.fin a1, XQ.fin a2⟩] = true := by
  have ha : a1 ≤ a2 := le_trans h2 (le_of_lt h3)
  have hD : Numeric_Interval.op_difference_interval ⟨XQ.fin a1, XQ.fin a2⟩
      ⟨XQ.fin b1, XQ.fin b2⟩ = [⟨XQ.fin b2, XQ.fin a2⟩] := by
    simp only [Numeric_Interval.op_difference_interval]
    rw [if_neg (bool_ne_true (show (XQ.lt (XQ.fin a2) (XQ.fin b1)
        || XQ.lt (XQ.fin b2) (XQ.fin a1)) = false by
      rw [xlt_ff (le_trans h1 ha), xlt_ff h2]; rfl))]
    rw [if_neg (bool_ne_true (show (XQ.le (XQ.fin b1) (XQ.fin a1)
        && XQ.le (XQ.fin a2) (XQ.fin b2)) = false by
      rw [xle_ff h3, Bool.and_false]))]
    rw [if_neg (bool_ne_true (show (XQ.lt (XQ.fin a1) (XQ.fin b1)
        && XQ.lt (XQ.fin b2) (XQ.fin a2)) = false by
      rw [xlt_ff h1]; rfl))]
    rw [if_neg (bool_ne_true (xlt_ff h1))]
    exact normalizeNI_single _
  have hX : Numeric_Interval.op_intersect_interval ⟨XQ.fin a1, XQ.fin a2⟩
      ⟨XQ.fin b1, XQ.fin b2⟩ = [⟨XQ.fin a1, XQ.fin b2⟩] := by
    simp only [Numeric_Interval.op_intersect_interval,
      xmax_fin, xmin_fin, max_eq_left h1, min_eq_right (le_of_lt h3)]
    rw [if_pos (xle_tt h2)]
    exact normalizeNI_single _
  rw [hD, hX, NID_op_union_intervals,
    show ([⟨XQ.fin b2, XQ.fin a2⟩] : NID) ++ [⟨XQ.fin a1, XQ.fin b2⟩]
      = [⟨XQ.fin b2, XQ.fin a2⟩, ⟨XQ.fin a1, XQ.fin b2⟩] from rfl]
  rcases eq_or_lt_of_le h2 with he | hlt
  · subst he
    rw [normalizeNI_pair (xle_tt (le_refl a1))]
    rw [if_pos (contains_tt_of_le (xle_tt (le_refl a1)) (xle_tt ha))]
    simp [NID_pyEq, Numeric_Interval.pyEq, xmax_fin, max_eq_left ha,
      XQ.isclose_refl]
  · rw [normalizeNI_pair_swap (xle_ff hlt),
      normalizeNI_pair (xle_tt (le_of_lt hlt))]
    rw [if_pos (contains_tt_of_le (xle_tt (le_of_lt hlt))
      (xle_tt (le_refl b2)))]
    simp [NID_pyEq, Numeric_Interval.pyEq, xmax_fin,
      max_eq_right (le_of_lt h3), XQ.isclose_refl]

/-- A \ B UNION A INTERSECT B equals A: case B strictly inside A. -/
theorem law2_caseI (a1 a2 b1 b2 : ℚ)
    (h1 : a1 < b1) (h2 : b2 < a2) (hb : b1 ≤ b2) :
    NID_pyEq
      (NID_op_union_intervals
        (Numeric_Interval.op_difference_interval ⟨XQ.fin a1, XQ.fin a2⟩
          ⟨XQ.fin b1, XQ.fin b2⟩)
        (Numeric_Interval.op_intersect_interval ⟨XQ.fin a1, XQ.fin a2⟩
          ⟨XQ.fin b1, XQ.fin b2⟩))
      [⟨XQ.fin a1, XQ.fin a2⟩] = true := by
  have hb1a2 : b1 ≤ a2 := le_of_lt (lt_of_le_of_lt hb h2)
  have ha1b2 : a1 ≤ b2 := le_of_lt (lt_of_lt_of_le h1 hb)
  have hDpre : Numeric_Interval.op_difference_interval ⟨XQ.fin a1, XQ.fin a2⟩
      ⟨XQ.fin b1, XQ.fin b2⟩ =
      normalizeNI [⟨XQ.fin a1, XQ.fin b1⟩, ⟨XQ.fin b2, XQ.fin a2⟩] := by
    simp only [Numeric_Interval.op_difference_interval]
    rw [if_neg (bool_ne_true (show (XQ.lt (XQ.fin a2) (XQ.fin b1)
        || XQ.lt (XQ.fin b2) (XQ.fin a1)) = false by
      rw [xlt_ff hb1a2, xlt_ff ha1b2]; rfl))]
    rw [if_neg (bool_ne_true (show (XQ.le (XQ.fin b1) (XQ.fin a1)
        && XQ.le (XQ.fin a2) (XQ.fin b2)) = false by
      rw [xle_ff h1]; rfl))]
    rw [if_pos (show (XQ.lt (XQ.fin a1) (XQ.fin b1)
        && XQ.lt (XQ.fin b2) (XQ.fin a2)) = true by
      rw [xlt_tt h1, xlt_tt h2]; rfl)]
  have hX : Numeric_Interval.op_intersect_interval ⟨XQ.fin a1, XQ.fin a2⟩
      ⟨XQ.fin b1, XQ.fin b2⟩ = [⟨XQ.fin b1, XQ.fin b2⟩] := by
    simp only [Numeric_Interval.op_intersect_interval,
      xmax_fin, xmin_fin, max_eq_right (le_of_lt h1), min_eq_right (le_of_lt h2)]
    rw [if_pos (xle_tt hb)]
    exact normalizeNI_single _
  by_cases hc : Numeric_Interval.contains ⟨XQ.fin a1, XQ.fin b1⟩ (XQ.fin b2) = true
  · have hD : Numeric_Interval.op_difference_interval ⟨XQ.fin a1, XQ.fin a2⟩
        ⟨XQ.fin b1, XQ.fin b2⟩ = [⟨XQ.fin a1, XQ.fin a2⟩] := by
      rw [hDpre, normalizeNI_pair (xle_tt ha1b2), if_pos hc]
      simp [xmax_fin, max_eq_right hb1a2]
    rw [hD, hX, NID_op_union_intervals,
      show ([⟨XQ.fin a1, XQ.fin a2⟩] : NID) ++ [⟨XQ.fin b1, XQ.fin b2⟩]
        = [⟨XQ.fin a1, XQ.fin a2⟩, ⟨XQ.fin b1, XQ.fin b2⟩] from rfl,
      normalizeNI_pair (xle_tt (le_of_lt h1))]
    rw [if_pos (contains_tt_of_le (xle_tt (le_of_lt h1)) (xle_tt hb1a2))]
    simp [NID_pyEq, Numeric_Interval.pyEq, xmax_fin,
      max_eq_left (le_of_lt h2), XQ.isclose_refl]
  · have hbb : b1 < b2 := by
      by_contra hcon
      push_neg at hcon
      exact hc (contains_tt_of_le (xle_tt ha1b2) (xle_tt hcon))
    have hD : Numeric_Interval.op_difference_interval ⟨XQ.fin a1, XQ.fin a2⟩
        ⟨XQ.fin b1, XQ.fin b2⟩ =
        [⟨XQ.fin a1, XQ.fin b1⟩, ⟨XQ.fin b2, XQ.fin a2⟩] := by
      rw [hDpre, normalizeNI_pair (xle_tt ha1b2), if_neg hc]
    rw [hD, hX, NID_op_union_intervals,
      show ([⟨XQ.fin a1, XQ.fin b1⟩, ⟨XQ.fin b2, XQ.fin a2⟩] : NID)
          ++ [⟨XQ.fin b1, XQ.fin b2⟩]
        = [⟨XQ.fin a1, XQ.fin b1⟩, ⟨XQ.fin b2, XQ.fin a2⟩,
           ⟨XQ.fin b1, XQ.fin b2⟩] from rfl]
    have hsort3 : List.insertionSort rLo
        [(⟨XQ.fin a1, XQ.fin b1⟩ : Numeric_Interval), ⟨XQ.fin b2, XQ.fin a2⟩,
         ⟨XQ.fin b1, XQ.fin b2⟩] =
        [⟨XQ.fin a1, XQ.fin b1⟩, ⟨XQ.fin b1, XQ.fin b2⟩,
         ⟨XQ.fin b2, XQ.fin a2⟩] := by
      have e2 : List.orderedInsert rLo
          (⟨XQ.fin b2, XQ.fin a2⟩ : Numeric_Interval)
          [⟨XQ.fin b1, XQ.fin b2⟩] =
          [⟨XQ.fin b1, XQ.fin b2⟩, ⟨XQ.fin b2, XQ.fin a2⟩] := by
        show (if rLo ⟨XQ.fin b2, XQ.fin a2⟩ ⟨XQ.fin b1, XQ.fin b2⟩ then
            (⟨XQ.fin b2, XQ.fin a2⟩ : Numeric_Interval) :: [⟨XQ.fin b1, XQ.fin b2⟩]
          else (⟨XQ.fin b1, XQ.fin b2⟩ : Numeric_Interval) ::
            List.orderedInsert rLo ⟨XQ.fin b2, XQ.fin a2⟩ []) = _
        rw [if_neg (rLo_ff (xle_ff hbb))]
        rfl
      have e3 : List.orderedInsert rLo
          (⟨XQ.fin a1, XQ.fin b1⟩ : Numeric_Interval)
          [⟨XQ.fin b1, XQ.fin b2⟩, ⟨XQ.fin b2, XQ.fin a2⟩] =
          [⟨XQ.fin a1, XQ.fin b1⟩, ⟨XQ.fin b1, XQ.fin b2⟩,
           ⟨XQ.fin b2, XQ.fin a2⟩] := by
        show (if rLo ⟨XQ.fin a1, XQ.fin b1⟩ ⟨XQ.fin b1, XQ.fin b2⟩ then
            (⟨XQ.fin a1, XQ.fin b1⟩ : Numeric_Interval) ::
              [⟨XQ.fin b1, XQ.fin b2⟩, ⟨XQ.fin b2, XQ.fin a2⟩]
          else (⟨XQ.fin b1, XQ.fin b2⟩ : Numeric_Interval) ::
            List.orderedInsert rLo ⟨XQ.fin a1, XQ.fin b1⟩
              [⟨XQ.fin b2, XQ.fin a2⟩]) = _
        rw [if_pos (show rLo ⟨XQ.fin a1, XQ.fin b1⟩ ⟨XQ.fin b1, XQ.fin b2⟩ from
          xle_tt (le_of_lt h1))]
      show List.orderedInsert rLo ⟨XQ.fin a1, XQ.fin b1⟩
        (List.orderedInsert rLo ⟨XQ.fin b2, XQ.fin a2⟩
          (List.orderedInsert rLo ⟨XQ.fin b1, XQ.fin b2⟩ [])) = _
      rw [show List.orderedInsert rLo
          (⟨XQ.fin b1, XQ.fin b2⟩ : Numeric_Interval) [] =
          [⟨XQ.fin b1, XQ.fin b2⟩] from rfl, e2, e3]
    rw [normalizeNI, hsort3,
      show gen_merge_all [(⟨XQ.fin a1, XQ.fin b1⟩ : Numeric_Interval),
          ⟨XQ.fin b1, XQ.fin b2⟩, ⟨XQ.fin b2, XQ.fin a2⟩] =
        gen_merge ⟨XQ.fin a1, XQ.fin b1⟩
          [⟨XQ.fin b1, XQ.fin b2⟩, ⟨XQ.fin b2, XQ.fin a2⟩] from rfl]
    rw [gen_merge_cons_merge (xle_tt (le_of_lt h1))
      (contains_tt_of_le (xle_tt (le_of_lt h1)) (xle_tt (le_refl b1)))]
    rw [show XQ.xmax (Numeric_Interval.hi ⟨XQ.fin a1, XQ.fin b1⟩)
        (Numeric_Interval.hi ⟨XQ.fin b1, XQ.fin b2⟩)
        = XQ.fin (max b1 b2) from xmax_fin b1 b2, max_eq_right hb]
    rw [gen_merge_cons_merge (xle_tt ha1b2)
      (contains_tt_of_le (xle_tt ha1b2) (xle_tt (le_refl b2)))]
    rw [gen_merge_single]
    simp [NID_pyEq, Numeric_Interval.pyEq, xmax_fin,
      max_eq_right (le_of_lt h2), XQ.isclose_refl]

/-- Claim C3 (amended): the first claimed law fails — (A \ B) ∩ B is in general
non-empty, because the closed-interval difference keeps the shared endpoints —
but the second law holds: for all finite valid intervals A = [a1, a2] and
B = [b1, b2], the union (A \ B) ∪ (A ∩ B) equals A under the set equality
implemented by `Numeric_Interval_Disjoint.__eq__` (per-constituent `isclose`
on both bounds). -/
theorem claim_C3_amended (a1 a2 b1 b2 : ℚ) (ha : a1 ≤ a2) (hb : b1 ≤ b2) :
    NID_pyEq
      (NID_op_union_intervals
        (Numeric_Interval.op_difference_interval ⟨XQ.fin a1, XQ.fin a2⟩
          ⟨XQ.fin b1, XQ.fin b2⟩)
        (Numeric_Interval.op_intersect_interval ⟨XQ.fin a1, XQ.fin a2⟩
          ⟨XQ.fin b1, XQ.fin b2⟩))
      [⟨XQ.fin a1, XQ.fin a2⟩] = true := by
  rcases lt_or_le a2 b1 with hN1 | hba1
  · exact law2_caseN1 a1 a2 b1 b2 ha hb hN1
  rcases lt_or_le b2 a1 with hN2 | hab1
  · exact law2_caseN2 a1 a2 b1 b2 ha hb hN2
  rcases le_or_lt b1 a1 with hba | hba
  · rcases le_or_lt a2 b2 with hab | hab
    · exact law2_caseF a1 a2 b1 b2 ha hba hab
    · exact law2_caseL a1 a2 b1 b2 hba hab1 hab
  · rcases le_or_lt a2 b2 with hab | hab
    · exact law2_caseR a1 a2 b1 b2 hba hba1 hab
    · exact law2_caseI a1 a2 b1 b2 hba hab hb

/-- Witness for C3 (amended) at A = [0, 2], B = [1, 3]. -/
theorem claim_C3_amended_witness :
    ((0 : ℚ) ≤ 2 ∧ (1 : ℚ) ≤ 3) ∧
    NID_pyEq
      (NID_op_union_intervals
        (Numeric_Interval.op_difference_interval ⟨XQ.fin 0, XQ.fin 2⟩
          ⟨XQ.fin 1, XQ.fin 3⟩)
        (Numeric_Interval.op_intersect_interval ⟨XQ.fin 0, XQ.fin 2⟩
          ⟨XQ.fin 1, XQ.fin 3⟩))
      [⟨XQ.fin 0, XQ.fin 2⟩] = true :=
  ⟨⟨by norm_num, by norm_num⟩,
    claim_C3_amended 0 2 1 3 (by norm_num) (by norm_num)⟩
